import Mathlib

/-!
Shallow embedding of the two scripts of the AUTO-ORG-MIG repository —
`organize_media_by_month.py` (the library organizer) and
`migrate_media_to_SSD.py` (the archive sync engine) — together with proofs
of the specification claims.

Modelling conventions:

* A file is a record of its directory (list of path components relative to
  the library root), its basename, its byte content and its metadata.
* Directories are not modelled as path occupiers; only files occupy paths.
* The walk `root_folder.rglob("*")` is modelled as a snapshot list of the
  files present when the run starts, visited in list order (the order is
  arbitrary, mirroring the unspecified traversal order of the walk).
* `hashlib.sha256` is modelled as an ideal collision-free content digest:
  the digest of a file is its byte content.
* `PIL.Image` metadata decoding is an external capability (spec section 1);
  its outcomes for a given file are part of the file's metadata record.
* Character-level string operations (`str.lower`, `str.isdigit`) are
  modelled on ASCII characters; Unicode case folding and Unicode digit
  classes are outside the embedding.
-/

namespace AutoOrgMig

/-! ### Decimal rendering

Python renders the probe counter with `f"{base}_{counter}{ext}"` and the
date folders with `f"{dt.year:04d}-{dt.month:02d}"`.  We embed decimal
rendering with explicit recursion fuel (fuel `n + 1` always suffices since
`n / 10 < n` once `n ≥ 10`). -/

def digitsAux : Nat → Nat → List Char
  | 0, _ => []
  | fuel + 1, n =>
      if n < 10 then [Nat.digitChar n]
      else digitsAux fuel (n / 10) ++ [Nat.digitChar (n % 10)]

def natStr (n : Nat) : String := ⟨digitsAux (n + 1) n⟩

/-- Numeric value of a digit string, used to prove that decimal rendering is
injective. -/
def dval (l : List Char) : Nat := l.foldl (fun a c => a * 10 + (c.toNat - 48)) 0

/-- Zero-padded decimal rendering, the embedding of Python format
specifications `04d` and `02d`. -/
def padZeros (width n : Nat) : String :=
  ⟨List.replicate (width - (natStr n).data.length) '0' ++ (natStr n).data⟩

/-! ### Python path name splitting

CPython `pathlib`: for a name whose last dot sits at index `i`, `suffix` is
`name[i:]` when `0 < i < len(name) - 1` and empty otherwise, and `stem` is
the rest of the name. -/

def lastDot : List Char → Option Nat
  | [] => none
  | c :: cs =>
      match lastDot cs with
      | some i => some (i + 1)
      | none => if c = '.' then some 0 else none

def splitName (cs : List Char) : List Char × List Char :=
  match lastDot cs with
  | some i => if 0 < i ∧ i < cs.length - 1 then (cs.take i, cs.drop i) else (cs, [])
  | none => (cs, [])

/-- Embedding of `pathlib.PurePath.stem` used by `safe_move`. -/
def pyStem (name : String) : String := ⟨(splitName name.data).1⟩

/-- Embedding of `pathlib.PurePath.suffix` used by `safe_move` and by every
extension test `path.suffix.lower()`. -/
def pySuffix (name : String) : String := ⟨(splitName name.data).2⟩

/-! ### Candidate names of the collision probe

`safe_move` first tries the requested destination name and then
`f"{base}_{counter}{ext}"` for `counter = 1, 2, ...`. -/

/-- Candidate number `k` probed by `safe_move` for destination stem/suffix:
candidate 0 is the destination name itself, candidate `k ≥ 1` carries the
numeric disambiguator `_k`. -/
def candName (stem ext : String) : Nat → String
  | 0 => stem ++ ext
  | k + 1 => stem ++ "_" ++ natStr (k + 1) ++ ext

/-- Python `str.lower()`, restricted to ASCII case folding. -/
def strLower (s : String) : String := ⟨s.data.map Char.toLower⟩

/-- The lowercased extension `path.suffix.lower()` used by every
classification test in `organize_media_by_month.py`. -/
def extOf (name : String) : String := strLower (pySuffix name)

/-- Embedding of `path.name.startswith(".")` (the hidden-file skip). -/
def hiddenName (name : String) : Bool :=
  match name.data with
  | [] => false
  | c :: _ => decide (c = '.')

/-! ### Data model: recognized extensions, special folders, media files -/

/-- File types treated as images whose embedded metadata is read
(IMAGE_EXTS, organize_media_by_month.py line 13). -/
def IMAGE_EXTS : List String := [".jpg", ".jpeg", ".jpe", ".tif", ".tiff", ".heic", ".png"]

/-- RAW photo formats (RAW_EXTS, line 16). -/
def RAW_EXTS : List String := [".raf", ".cr2", ".nef", ".dng", ".arw", ".rw2", ".orf"]

/-- Video formats (VIDEO_EXTS, line 19). -/
def VIDEO_EXTS : List String := [".mp4", ".mov", ".m4v", ".avi", ".mts", ".m2ts"]

/-- All media to be moved (MEDIA_EXTS, line 22); Python set union embedded as
list concatenation, membership being all that is ever consulted. -/
def MEDIA_EXTS : List String := IMAGE_EXTS ++ RAW_EXTS ++ VIDEO_EXTS

/-- Quarantine folder name at the library root (line 25). -/
def DUPLICATES_DIR_NAME : String := "_duplicates"

/-- Drop folder name at the library root (line 26). -/
def INBOX_DIR_NAME : String := "_inbox"

/-- Calendar date extracted from a timestamp; only year, month and day are
consulted by the organizer. -/
structure Date where
  year : Nat
  month : Nat
  day : Nat
deriving DecidableEq

/-- Outcomes of the external PIL metadata decoding for one file, plus the
filesystem modification time.  The decoder is a read-only capability (spec
section 1), so its outcomes are attributes of the file itself and are
unchanged by moves (`shutil.move` preserves file content and timestamps). -/
structure FileMeta where
  /-- `Image.open` plus `_getexif()` raise no exception. -/
  decodeOk : Bool
  /-- the decoded exif mapping is truthy, i.e. `if not exif` does not fire. -/
  exifTruthy : Bool
  /-- `DateTimeOriginal` is present and `strptime`-parseable; a present but
  unparseable value raises inside the `try` block and is equivalent to
  absence (both fall back to the modification time). -/
  dto : Option Date
  /-- `bool(exif.get(gps_tag_id))` for the `GPSInfo` tag. -/
  gpsTruthy : Bool
  /-- calendar date of `st_mtime`. -/
  mtime : Date
deriving DecidableEq

/-- One file of the library: directory components relative to the library
root, basename, byte content and metadata. -/
structure OFile where
  dir : List String
  name : String
  content : List Nat
  meta : FileMeta
deriving DecidableEq

/-- Embedding of `file_hash` (lines 91-100): the SHA-256 content digest,
modelled as an ideal collision-free digest of the byte content. -/
def file_hash (content : List Nat) : List Nat := content

/-- Embedding of `has_gps_exif` (lines 28-47).  Non-image suffixes return
`False` before any decoding; each decode failure (the `except` branch) and a
falsy exif mapping return `False`; otherwise the truthiness of the `GPSInfo`
entry is returned.  `EXIF_TAGS.get("GPSInfo")` is a lookup in the constant
PIL tag table and never yields `None`. -/
def has_gps_exif (f : OFile) : Bool :=
  if extOf f.name ∈ IMAGE_EXTS then
    if f.meta.decodeOk then
      if f.meta.exifTruthy then f.meta.gpsTruthy
      else false
    else false
  else false

/-- Embedding of `get_capture_datetime` (lines 50-70): for images, the
parsed `DateTimeOriginal` when the whole decode chain succeeds; in every
other case (non-image suffix, decode exception, falsy exif, absent or
unparseable field) the filesystem modification time. -/
def get_capture_datetime (f : OFile) : Date :=
  if extOf f.name ∈ IMAGE_EXTS then
    if f.meta.decodeOk then
      if f.meta.exifTruthy then
        match f.meta.dto with
        | some d => d
        | none => f.meta.mtime
      else f.meta.mtime
    else f.meta.mtime
  else f.meta.mtime

/-- Month folder name, Python `f"{dt.year:04d}-{dt.month:02d}"` (line 159). -/
def monthFolderName (d : Date) : String :=
  padZeros 4 d.year ++ "-" ++ padZeros 2 d.month

/-- Day folder name, Python `f"{dt.year:04d}-{dt.month:02d}-{dt.day:02d}"`
(line 160). -/
def dayFolderName (d : Date) : String :=
  padZeros 4 d.year ++ "-" ++ padZeros 2 d.month ++ "-" ++ padZeros 2 d.day

/-! ### Classification and placement -/

/-- Leaf folders below the day folder, the branch structure of `organize`
(lines 162-184) as a function of the lowercased extension and the geo flag:
videos never consult the geo flag; raw and other photos split on
`RAW_EXTS`; geo-tagged photos gain a `geo` parent folder. -/
def classifiedLeaf (ext : String) (isGeo : Bool) : List String :=
  if ext ∈ VIDEO_EXTS then ["video"]
  else
    let photoType := if ext ∈ RAW_EXTS then "raw" else "jpeg"
    if isGeo then ["geo", photoType] else [photoType]

/-- The target directory `organize` computes for a non-duplicate media
file: month folder, then day folder, then the classified leaf folders.
The code evaluates `has_gps_exif` only in the non-video branch; passing the
flag unconditionally is equivalent because the resolver is pure and the
video branch ignores it. -/
def targetDir (f : OFile) : List String :=
  let dt := get_capture_datetime f
  monthFolderName dt :: dayFolderName dt :: classifiedLeaf (extOf f.name) (has_gps_exif f)

/-- Directory components of the quarantine folder `root/_duplicates`. -/
def duplicatesDir : List String := [DUPLICATES_DIR_NAME]

/-- Test of `path.relative_to(duplicates_root)` not raising (lines
132-137): the file lies inside the quarantine subtree. -/
def underDuplicates (dir : List String) : Bool :=
  decide (dir.head? = some DUPLICATES_DIR_NAME)

/-- The three skip tests of the walk loop, in source order (lines 131-145):
already quarantined, hidden basename, unrecognized extension. -/
def isSkipped (f : OFile) : Bool :=
  underDuplicates f.dir || hiddenName f.name || decide (extOf f.name ∉ MEDIA_EXTS)

/-- Does some file of `fs` occupy basename `n` in directory `d`?  This is
the `candidate.exists()` test consulted by `safe_move`; only files are
modelled as path occupiers. -/
def occupies (fs : List OFile) (d : List String) (n : String) : Bool :=
  fs.any fun g => decide (g.dir = d) && decide (g.name = n)

/-- The while loop of `safe_move` (lines 82-88) with explicit fuel: while
the current candidate is occupied, advance to the next numbered candidate. -/
def probeAux (occ : String → Bool) (stem ext : String) : Nat → Nat → String
  | 0, c => candName stem ext c
  | fuel + 1, c =>
      if occ (candName stem ext c) then probeAux occ stem ext fuel (c + 1)
      else candName stem ext c

/-- The basename at which `safe_move` deposits a file requested at
destination name `dstName`: the first unoccupied candidate.  Fuel one
beyond the number of files on disk always suffices, because those files
occupy at most `fs.length` basenames while any `fs.length + 1` consecutive
candidates are pairwise distinct. -/
def safe_move_name (fs : List OFile) (d : List String) (dstName : String) : String :=
  probeAux (occupies fs d) (pyStem dstName) (pySuffix dstName) (fs.length + 1) 0

/-- Embedding of `safe_move` (lines 73-89) at the filesystem level: `fs`
holds every file on disk other than the moved one, and the moved file
reappears in the target directory under the probed name.
`mkdir(parents=True, exist_ok=True)` creates only directories, which are
not path occupiers in the model. -/
def safe_move (fs : List OFile) (f : OFile) (d : List String) (dstName : String) : List OFile :=
  fs ++ [{ f with dir := d, name := safe_move_name fs d dstName }]

/-! ### The organize run -/

/-- Mutable state of one organize run: the files already visited, at their
end-of-run positions; the `seen_hashes` mapping in insertion order; and the
number of `safe_move` invocations performed so far (each accompanied by one
`Moving:`/`Duplicate detected` log line). -/
structure OrgState where
  placed : List OFile
  seen : List (List Nat × (List String × String))
  moves : Nat
deriving DecidableEq

/-- Run state at the start of `organize`: nothing visited, `seen_hashes`
empty, no moves performed. -/
def initState : OrgState := ⟨[], [], 0⟩

/-- Association lookup modelling `h in seen_hashes` / `seen_hashes[h]`. -/
def seenLookup (h : List Nat) :
    List (List Nat × (List String × String)) → Option (List String × String)
  | [] => none
  | (k, v) :: rest => if k = h then some v else seenLookup h rest

/-- One iteration of the walk loop of `organize` (lines 127-191) on the
file `f`; `rest` holds the files not yet visited, which together with
`st.placed` make up the remainder of the disk that the existence probe of
`safe_move` consults.  A visited file's own old path can never collide with
a probe candidate because the candidates lie in a directory the file is not
in (duplicates are not already under quarantine, and non-duplicates are
moved only when their parent differs from the target). -/
def reloc (f : OFile) (d : List String) (n : String) : OFile :=
  { f with dir := d, name := n }

def orgStep (st : OrgState) (f : OFile) (rest : List OFile) : OrgState :=
  if underDuplicates f.dir then { st with placed := st.placed ++ [f] }
  else if hiddenName f.name then { st with placed := st.placed ++ [f] }
  else if extOf f.name ∉ MEDIA_EXTS then { st with placed := st.placed ++ [f] }
  else
    let h := file_hash f.content
    match seenLookup h st.seen with
    | some _ =>
        let nm := safe_move_name (st.placed ++ rest) duplicatesDir f.name
        { placed := st.placed ++ [reloc f duplicatesDir nm],
          seen := st.seen, moves := st.moves + 1 }
    | none =>
        let seen2 := st.seen ++ [(h, (f.dir, f.name))]
        let tdir := targetDir f
        if f.dir = tdir then { st with placed := st.placed ++ [f], seen := seen2 }
        else
          let nm := safe_move_name (st.placed ++ rest) tdir f.name
          { placed := st.placed ++ [reloc f tdir nm],
            seen := seen2, moves := st.moves + 1 }

/-- The walk loop of `organize` over the snapshot of files, in visitation
order. -/
def orgRun : OrgState → List OFile → OrgState
  | st, [] => st
  | st, f :: rest => orgRun (orgStep st f rest) rest

/-- Embedding of `organize` (lines 102-205) from the empty run state.  The
inbox `mkdir` creates a directory only, and the post-walk cleanup (lines
193-205) removes only directory trees containing zero files; neither
affects the file-level state. -/
def organize (files : List OFile) : OrgState := orgRun initState files

/-! ### Ghost description of a run -/

/-- The keys of the `seen_hashes` mapping. -/
def seenKeys (seen : List (List Nat × (List String × String))) : List (List Nat) :=
  seen.map Prod.fst

/-- The duplicate decision depends only on the content hashes of the
processed files visited earlier; this function advances that ghost list
(`seen_hashes` gains a key exactly when a processed file's hash is new). -/
def procHashes (prev : List (List Nat)) (f : OFile) : List (List Nat) :=
  if isSkipped f then prev
  else if file_hash f.content ∈ prev then prev
  else prev ++ [file_hash f.content]

/-- End-of-run directory of one walked file, determined by the skip tests
and the duplicate decision alone (the probe affects only the basename). -/
def finalDirSpec (prev : List (List Nat)) (f : OFile) : List String :=
  if isSkipped f then f.dir
  else if file_hash f.content ∈ prev then duplicatesDir
  else targetDir f

/-- Relation between a walked input file and the record it leaves in the
run state: content and metadata are untouched, the directory follows
`finalDirSpec`, the basename is some probe candidate of the original stem
and suffix, and skipped files are untouched entirely. -/
def Outcome (prev : List (List Nat)) (f g : OFile) : Prop :=
  g.content = f.content ∧ g.meta = f.meta ∧ g.dir = finalDirSpec prev f ∧
    (∃ k, g.name = candName (pyStem f.name) (pySuffix f.name) k) ∧
    (isSkipped f = true → g = f)

/-- Pointwise outcomes of a walk segment, threading the ghost hash list. -/
inductive OutcomesRel : List (List Nat) → List OFile → List OFile → Prop where
  | nil (prev : List (List Nat)) : OutcomesRel prev [] []
  | cons {prev : List (List Nat)} {f g : OFile} {fs gs : List OFile} :
      Outcome prev f g → OutcomesRel (procHashes prev f) fs gs →
      OutcomesRel prev (f :: fs) (g :: gs)

/-! ### Per-hash structure of a run -/

/-- Input/output pairs of the walked files that pass all three skip tests. -/
def processedPairs (fs outs : List OFile) : List (OFile × OFile) :=
  (fs.zip outs).filter fun p => !isSkipped p.1

/-- The processed pairs whose input carries content hash `h`. -/
def pairsWithHash (fs outs : List OFile) (h : List Nat) : List (OFile × OFile) :=
  (processedPairs fs outs).filter fun p => decide (file_hash p.1.content = h)

/-! ### The archive sync engine (migrate_media_to_SSD.py) -/

/-- One file below a month folder: its path relative to the month folder
and its byte content. -/
structure SFile where
  rel : List String
  content : List Nat
deriving DecidableEq

/-- Python `str.isdigit` on a slice: non-empty and every character a digit
(restricted to ASCII digits; Unicode digit classes are outside the
embedding). -/
def pyIsdigit (cs : List Char) : Bool :=
  !cs.isEmpty && cs.all Char.isDigit

/-- Embedding of `is_month_folder` (lines 21-28): reject unless the name
has exactly 7 characters with a dash at index 4, then test
`name[:4].isdigit() and name[5:].isdigit()`. -/
def is_month_folder (name : String) : Bool :=
  if name.data.length ≠ 7 then false
  else if name.data[4]? ≠ some '-' then false
  else pyIsdigit (name.data.take 4) && pyIsdigit (name.data.drop 5)

/-- Lexicographic comparison of character lists by code point, the order
Python uses when sorting names. -/
def strLeData : List Char → List Char → Bool
  | [], _ => true
  | _ :: _, [] => false
  | a :: as, b :: bs =>
      if a = b then strLeData as bs else decide (a.toNat < b.toNat)

/-- Name comparison for the sort of the month-folder list. -/
def strLe (a b : String) : Bool := strLeData a.data b.data

/-- Insertion into a by-name sorted list, used to embed `sorted(...)`. -/
def insertByName (x : String × Bool) : List (String × Bool) → List (String × Bool)
  | [] => [x]
  | y :: ys => if strLe x.1 y.1 then x :: y :: ys else y :: insertByName x ys

/-- Name-sorted top-level entries, embedding
`sorted(source_root.iterdir(), key=lambda p: p.name)` (line 117). -/
def sortByName (l : List (String × Bool)) : List (String × Bool) :=
  l.foldr insertByName []

/-- Embedding of the month-folder selection of `main` (lines 116-119): the
top-level entries (name, is-directory flag) sorted by name, keeping the
directories accepted by `is_month_folder`; these are the SyncUnits
processed by the run. -/
def month_folders (entries : List (String × Bool)) : List String :=
  ((sortByName entries).filter (fun e => e.2 && is_month_folder e.1)).map Prod.fst

/-- Exception classes distinguished by `safe_copy` (lines 31-48): `OSError`
— the class raised when the destination filesystem rejects attribute
preservation (the exFAT flags case of the docstring) — and every other
exception class. -/
inductive PyErr where
  | osError
  | otherError
deriving DecidableEq

/-- Outcomes of the two copy primitives for one invocation, supplied by the
environment; `none` is success. -/
structure CopyEnv where
  copy2 : Option PyErr
  copyfile : Option PyErr
deriving DecidableEq

/-- Result of `safe_copy`: success with metadata preserved, success as a
plain byte copy after the warning, or an exception propagated to the
caller. -/
inductive CopyResult where
  | preserved
  | plain
  | raised (e : PyErr)
deriving DecidableEq

/-- Embedding of `safe_copy` (lines 31-48): try `shutil.copy2`; on
`OSError` print a warning and retry with `shutil.copyfile`, whose failure
propagates; any non-`OSError` failure of `copy2` propagates with no
warning and no retry.  The second component counts emitted warnings. -/
def safe_copy (env : CopyEnv) : CopyResult × Nat :=
  match env.copy2 with
  | none => (CopyResult.preserved, 0)
  | some PyErr.osError =>
      match env.copyfile with
      | none => (CopyResult.plain, 1)
      | some e => (CopyResult.raised e, 1)
  | some PyErr.otherError => (CopyResult.raised PyErr.otherError, 0)

/-- Differential walk of `sync_month_folder` (lines 72-91): fold over the
source files in walk order, threading the live destination list and the
copied and skipped counters; the existence test consults the destination
as it stands when the file is visited. -/
def syncFold : List SFile → List SFile × Nat × Nat → List SFile × Nat × Nat
  | [], st => st
  | f :: rest, (d, c, s) =>
      if d.any (fun g => decide (g.rel = f.rel)) then syncFold rest (d, c, s + 1)
      else syncFold rest (d ++ [f], c + 1, s)

/-- Embedding of `sync_month_folder` (lines 51-91).  The destination month
folder is `none` when it does not exist — the fast path: `shutil.copytree`
copies every source file and the copied count is the post-copy recursive
file count — and `some d` otherwise, the differential path.  Every write
in the source is absent: the engine only reads `src`. -/
def sync_month_folder (src : List SFile) (dst : Option (List SFile)) :
    List SFile × Nat × Nat :=
  match dst with
  | none => (src, src.length, 0)
  | some d => syncFold src (d, 0, 0)

/-- Destination files present before a run. -/
def dstFiles (dst : Option (List SFile)) : List SFile :=
  match dst with
  | none => []
  | some d => d

/-! ### Concrete example files used by witnesses and counterexamples -/

/-- Metadata of a JPEG with a decodable capture date of 2025-03-14 and no
GPS block (the example scenario of spec section 8). -/
def exJpgMeta : FileMeta :=
  { decodeOk := true, exifTruthy := true, dto := some ⟨2025, 3, 14⟩,
    gpsTruthy := false, mtime := ⟨2024, 1, 1⟩ }

/-- The organized original: already at its canonical path. -/
def exOrig : OFile :=
  { dir := ["2025-03", "2025-03-14", "jpeg"], name := "IMG_0001.JPG",
    content := [7], meta := exJpgMeta }

/-- A byte-identical copy dropped into the inbox. -/
def exCopy : OFile :=
  { dir := [INBOX_DIR_NAME], name := "IMG_0001.JPG",
    content := [7], meta := exJpgMeta }

/-- A raw (Fujifilm `.RAF`) file whose metadata carries a non-empty GPS
block and a decodable capture date. -/
def exRawGps : OFile :=
  { dir := [INBOX_DIR_NAME], name := "DSCF0001.RAF", content := [9],
    meta := { decodeOk := true, exifTruthy := true, dto := some ⟨2025, 3, 14⟩,
              gpsTruthy := true, mtime := ⟨2025, 3, 14⟩ } }

/-- An image whose embedded metadata cannot be decoded. -/
def exBadImage : OFile :=
  { dir := [INBOX_DIR_NAME], name := "IMG_0002.JPG", content := [8],
    meta := { decodeOk := false, exifTruthy := false, dto := none,
              gpsTruthy := true, mtime := ⟨2023, 7, 5⟩ } }

/-- Two fresh inbox files of distinct content used by the placement
witness. -/
def exNew1 : OFile :=
  { dir := [INBOX_DIR_NAME], name := "IMG_0001.JPG", content := [1],
    meta := exJpgMeta }

/-- Second fresh inbox file, byte-distinct from the first. -/
def exNew2 : OFile :=
  { dir := [INBOX_DIR_NAME], name := "IMG_0001.JPG", content := [2],
    meta := exJpgMeta }

/-! ### Lemmas and claim theorems -/

theorem dval_append_singleton (l : List Char) (c : Char) :
    dval (l ++ [c]) = dval l * 10 + (c.toNat - 48) := by
  simp [dval, List.foldl_append]

theorem digitChar_toNat {n : Nat} (h : n < 10) : (Nat.digitChar n).toNat = n + 48 := by
  interval_cases n <;> rfl

theorem digitChar_isDigit {n : Nat} (h : n < 10) : (Nat.digitChar n).isDigit = true := by
  interval_cases n <;> rfl

theorem dval_digitsAux : ∀ fuel n, n ≤ fuel → dval (digitsAux (fuel + 1) n) = n := by
  intro fuel
  induction fuel using Nat.strong_induction_on with
  | _ fuel ih =>
    intro n hn
    by_cases h10 : n < 10
    · simp [digitsAux, h10, dval, digitChar_toNat h10]
    · obtain ⟨f, rfl⟩ : ∃ f, fuel = f + 1 := ⟨fuel - 1, by omega⟩
      have hdiv : n / 10 < n := Nat.div_lt_self (by omega) (by omega)
      have : digitsAux (f + 1 + 1) n = digitsAux (f + 1) (n / 10) ++ [Nat.digitChar (n % 10)] := by
        simp [digitsAux, h10]
      rw [this, dval_append_singleton, ih f (by omega) (n / 10) (by omega),
        digitChar_toNat (Nat.mod_lt n (by omega))]
      omega

theorem natStr_inj {a b : Nat} (h : natStr a = natStr b) : a = b := by
  have hdata : digitsAux (a + 1) a = digitsAux (b + 1) b := congrArg String.data h
  have := dval_digitsAux a a (Nat.le_refl a)
  rw [hdata, dval_digitsAux b b (Nat.le_refl b)] at this
  omega

theorem digitsAux_ne_nil (fuel n : Nat) : digitsAux (fuel + 1) n ≠ [] := by
  by_cases h : n < 10 <;> simp [digitsAux, h]

theorem natStr_data_ne_nil (n : Nat) : (natStr n).data ≠ [] := digitsAux_ne_nil n n

theorem digitsAux_isDigit : ∀ fuel n, ∀ c ∈ digitsAux fuel n, c.isDigit = true := by
  intro fuel
  induction fuel with
  | zero => intro n c hc; simp [digitsAux] at hc
  | succ f ih =>
    intro n c hc
    by_cases h : n < 10
    · simp [digitsAux, h] at hc
      subst hc; exact digitChar_isDigit h
    · simp [digitsAux, h] at hc
      rcases hc with hc | hc
      · exact ih _ _ hc
      · subst hc; exact digitChar_isDigit (Nat.mod_lt n (by omega))

theorem natStr_isDigit (n : Nat) : ∀ c ∈ (natStr n).data, c.isDigit = true :=
  digitsAux_isDigit (n + 1) n

theorem padZeros_head_isDigit (w n : Nat) :
    ∃ c t, (padZeros w n).data = c :: t ∧ c.isDigit = true := by
  unfold padZeros
  cases hw : w - (natStr n).data.length with
  | zero =>
    cases hd : (natStr n).data with
    | nil => exact absurd hd (natStr_data_ne_nil n)
    | cons c t =>
      exact ⟨c, t, by simp [hd], natStr_isDigit n c (by simp [hd])⟩
  | succ k =>
    exact ⟨'0', List.replicate k '0' ++ (natStr n).data, by simp [List.replicate_succ], rfl⟩

theorem data_append (a b : String) : (a ++ b).data = a.data ++ b.data := rfl

theorem string_eq_of_data {a b : String} (h : a.data = b.data) : a = b := by
  cases a; cases b; exact congrArg String.mk h

theorem splitName_take_drop (cs : List Char) :
    (splitName cs).1 ++ (splitName cs).2 = cs := by
  unfold splitName
  cases lastDot cs with
  | none => simp
  | some i =>
    by_cases h : 0 < i ∧ i < cs.length - 1
    · simp [h]
    · simp [h]

theorem stem_append_suffix (name : String) : pyStem name ++ pySuffix name = name := by
  apply string_eq_of_data
  rw [data_append]
  exact splitName_take_drop name.data

theorem lastDot_none_iff (cs : List Char) : lastDot cs = none ↔ '.' ∉ cs := by
  induction cs with
  | nil => simp [lastDot]
  | cons c cs ih =>
    simp only [lastDot, List.mem_cons]
    cases hcs : lastDot cs with
    | some j =>
      have hdot : '.' ∈ cs := by
        by_contra hn
        rw [ih.mpr hn] at hcs
        exact Option.noConfusion hcs
      simp [hdot]
    | none =>
      have hno : '.' ∉ cs := ih.mp hcs
      by_cases hc : c = '.'
      · simp [hc]
      · have hcc : ¬('.' = c) := fun h => hc h.symm
        simp [hc, hno, hcc]

theorem lastDot_spec : ∀ cs i, lastDot cs = some i →
    i < cs.length ∧ cs.drop i = '.' :: cs.drop (i + 1) ∧ '.' ∉ cs.drop (i + 1) := by
  intro cs
  induction cs with
  | nil => intro i h; simp [lastDot] at h
  | cons c cs ih =>
    intro i h
    simp only [lastDot] at h
    cases hcs : lastDot cs with
    | some j =>
      rw [hcs] at h
      obtain rfl : j + 1 = i := by simpa using h
      obtain ⟨h1, h2, h3⟩ := ih j hcs
      exact ⟨by simpa using Nat.succ_lt_succ h1, by simpa using h2, by simpa using h3⟩
    | none =>
      rw [hcs] at h
      by_cases hc : c = '.'
      · simp only [hc, if_true] at h
        obtain rfl : i = 0 := by
          have := h
          simp at this
          omega
        subst hc
        exact ⟨by simp, by simp, (lastDot_none_iff cs).mp hcs⟩
      · simp [hc] at h

theorem lastDot_append (s t : List Char) (hnd : '.' ∉ t) :
    lastDot (s ++ '.' :: t) = some s.length := by
  induction s with
  | nil => simp [lastDot, (lastDot_none_iff t).mpr hnd]
  | cons c s ih => simp [lastDot, ih]

theorem splitName_append (s t : List Char) (hs : s ≠ []) (ht : t ≠ []) (hnd : '.' ∉ t) :
    splitName (s ++ '.' :: t) = (s, '.' :: t) := by
  have hld := lastDot_append s t hnd
  have hcond : 0 < s.length ∧ s.length < (s ++ '.' :: t).length - 1 := by
    constructor
    · exact List.length_pos.mpr hs
    · have := List.length_pos.mpr ht
      simp only [List.length_append, List.length_cons]
      omega
  simp only [splitName, hld, hcond, and_self, if_true]
  rw [List.take_left, List.drop_left]

/-- Packaging of what holds of a name whose suffix is non-empty: the name
decomposes as `stem ++ '.' :: tail` with a non-empty stem, a non-empty tail
and no further dot in the tail. -/
theorem splitName_spec (cs : List Char) (h : (splitName cs).2 ≠ []) :
    ∃ s t, cs = s ++ '.' :: t ∧ splitName cs = (s, '.' :: t) ∧
      s ≠ [] ∧ t ≠ [] ∧ '.' ∉ t := by
  unfold splitName at h ⊢
  cases hld : lastDot cs with
  | none => rw [hld] at h; simp at h
  | some i =>
    rw [hld] at h
    by_cases hcond : 0 < i ∧ i < cs.length - 1
    · obtain ⟨hlt, hdrop, hnd⟩ := lastDot_spec cs i hld
      refine ⟨cs.take i, cs.drop (i + 1), ?_, ?_, ?_, ?_, hnd⟩
      · conv_lhs => rw [← List.take_append_drop i cs]
        rw [hdrop]
      · show (if 0 < i ∧ i < cs.length - 1 then (cs.take i, cs.drop i) else (cs, [])) = _
        rw [if_pos hcond, hdrop]
      · have hlen : (cs.take i).length = i := List.length_take_of_le (Nat.le_of_lt hlt)
        intro hnil
        rw [hnil] at hlen
        simp at hlen
        omega
      · intro hnil
        have := congrArg List.length hnil
        simp [List.length_drop] at this
        omega
    · exfalso
      apply h
      show (if 0 < i ∧ i < cs.length - 1 then (cs.take i, cs.drop i) else (cs, [])).2 = []
      rw [if_neg hcond]

theorem candName_succ_data (stem ext : String) (k : Nat) :
    (candName stem ext (k + 1)).data =
      (stem.data ++ '_' :: (natStr (k + 1)).data) ++ ext.data := by
  show (stem ++ "_" ++ natStr (k + 1) ++ ext).data = _
  simp [data_append]

theorem candName_succ_data_len (stem ext : String) (k : Nat) :
    (candName stem ext (k + 1)).data.length =
      stem.data.length + 1 + (natStr (k + 1)).data.length + ext.data.length := by
  rw [candName_succ_data]
  simp
  omega

theorem candName_inj (stem ext : String) :
    ∀ {j k : Nat}, candName stem ext j = candName stem ext k → j = k := by
  intro j k h
  have hlen := congrArg (fun s => s.data.length) h
  match j, k with
  | 0, 0 => rfl
  | 0, k + 1 =>
    exfalso
    have h1 : (candName stem ext 0).data.length = stem.data.length + ext.data.length := by
      show (stem ++ ext).data.length = _
      simp [data_append]
    have h2 := candName_succ_data_len stem ext k
    have h3 : 0 < (natStr (k + 1)).data.length :=
      List.length_pos.mpr (natStr_data_ne_nil (k + 1))
    simp only [h1, h2] at hlen
    omega
  | j + 1, 0 =>
    exfalso
    have h1 : (candName stem ext 0).data.length = stem.data.length + ext.data.length := by
      show (stem ++ ext).data.length = _
      simp [data_append]
    have h2 := candName_succ_data_len stem ext j
    have h3 : 0 < (natStr (j + 1)).data.length :=
      List.length_pos.mpr (natStr_data_ne_nil (j + 1))
    simp only [h1, h2] at hlen
    omega
  | j + 1, k + 1 =>
    have hd := congrArg String.data h
    rw [candName_succ_data, candName_succ_data] at hd
    have h1 := List.append_cancel_right hd
    have h2 := List.append_cancel_left h1
    have h3 : (natStr (j + 1)).data = (natStr (k + 1)).data := by
      simpa using h2
    have := natStr_inj (string_eq_of_data h3)
    omega

theorem hiddenName_eq_head (name : String) :
    hiddenName name = decide (name.data.head? = some '.') := by
  unfold hiddenName
  cases name.data <;> simp

/-- Renaming a file to any probe candidate of its own stem and suffix keeps
its suffix (hence its lowercased extension) and its leading character intact,
provided the suffix is non-empty. -/
theorem candName_keeps_suffix_head (name : String) (hsuf : (pySuffix name).data ≠ [])
    (k : Nat) :
    pySuffix (candName (pyStem name) (pySuffix name) k) = pySuffix name ∧
      (candName (pyStem name) (pySuffix name) k).data.head? = name.data.head? := by
  obtain ⟨s, t, hcs, hsplit, hs, ht, hnd⟩ := splitName_spec name.data hsuf
  have hstem : (pyStem name).data = s := by
    unfold pyStem
    rw [hsplit]
  have hsufd : (pySuffix name).data = '.' :: t := by
    unfold pySuffix
    rw [hsplit]
  match k with
  | 0 =>
    have h0 : candName (pyStem name) (pySuffix name) 0 = name :=
      stem_append_suffix name
    rw [h0]
    exact ⟨rfl, rfl⟩
  | k + 1 =>
    have hdata : (candName (pyStem name) (pySuffix name) (k + 1)).data =
        (s ++ '_' :: (natStr (k + 1)).data) ++ '.' :: t := by
      rw [candName_succ_data, hstem, hsufd]
    constructor
    · apply string_eq_of_data
      have hre : (pySuffix (candName (pyStem name) (pySuffix name) (k + 1))).data
          = (splitName ((candName (pyStem name) (pySuffix name) (k + 1)).data)).2 := rfl
      rw [hre, hdata, splitName_append _ t (by simp) ht hnd, hsufd]
    · rw [hdata, hcs]
      cases s with
      | nil => exact absurd rfl hs
      | cons c s0 => simp

theorem monthFolderName_ne_duplicates (d : Date) :
    monthFolderName d ≠ DUPLICATES_DIR_NAME := by
  intro h
  obtain ⟨c, t, hd, hdig⟩ := padZeros_head_isDigit 4 d.year
  have hdata := congrArg String.data h
  rw [monthFolderName] at hdata
  rw [data_append, data_append, hd] at hdata
  have hhead := congrArg List.head? hdata
  simp [DUPLICATES_DIR_NAME] at hhead
  rw [hhead] at hdig
  exact absurd hdig (by decide)

/-! ### Correctness of the collision probe -/

theorem probeAux_is_cand (occ : String → Bool) (stem ext : String) :
    ∀ fuel c, ∃ k, probeAux occ stem ext fuel c = candName stem ext (c + k) := by
  intro fuel
  induction fuel with
  | zero => intro c; exact ⟨0, rfl⟩
  | succ f ih =>
    intro c
    by_cases h : occ (candName stem ext c) = true
    · obtain ⟨k, hk⟩ := ih (c + 1)
      refine ⟨k + 1, ?_⟩
      simp only [probeAux, h, if_true]
      rw [hk]
      congr 1
      omega
    · refine ⟨0, ?_⟩
      have hb : occ (candName stem ext c) = false := by simpa using h
      simp [probeAux, hb]

theorem probeAux_free (occ : String → Bool) (stem ext : String) :
    ∀ fuel c, (∃ k, k < fuel ∧ occ (candName stem ext (c + k)) = false) →
      ∃ k, probeAux occ stem ext fuel c = candName stem ext (c + k) ∧
        occ (candName stem ext (c + k)) = false ∧
        ∀ j, j < k → occ (candName stem ext (c + j)) = true := by
  intro fuel
  induction fuel with
  | zero =>
    intro c hex
    obtain ⟨k, hk, _⟩ := hex
    omega
  | succ f ih =>
    intro c hex
    obtain ⟨k, hkf, hkfree⟩ := hex
    by_cases h : occ (candName stem ext c) = true
    · have hk0 : k ≠ 0 := by
        intro h0
        rw [h0, Nat.add_zero] at hkfree
        rw [hkfree] at h
        exact Bool.noConfusion h
      have hshift : occ (candName stem ext (c + 1 + (k - 1))) = false := by
        have : c + 1 + (k - 1) = c + k := by omega
        rw [this]
        exact hkfree
      obtain ⟨k', hk', hfree', hall'⟩ := ih (c + 1) ⟨k - 1, by omega, hshift⟩
      refine ⟨k' + 1, ?_, ?_, ?_⟩
      · simp only [probeAux, h, if_true]
        rw [hk']
        congr 1
        omega
      · have : c + (k' + 1) = c + 1 + k' := by omega
        rw [this]
        exact hfree'
      · intro j hj
        cases j with
        | zero => simpa using h
        | succ j0 =>
          have := hall' j0 (by omega)
          have harg : c + 1 + j0 = c + (j0 + 1) := by omega
          rw [harg] at this
          exact this
    · have hb : occ (candName stem ext c) = false := by simpa using h
      refine ⟨0, by simp [probeAux, hb], by simpa using hb, ?_⟩
      intro j hj
      omega

theorem exists_free_cand (fs : List OFile) (d : List String) (stem ext : String) (c : Nat) :
    ∃ k, k < fs.length + 1 ∧ occupies fs d (candName stem ext (c + k)) = false := by
  by_contra hall
  push_neg at hall
  have hocc : ∀ k ∈ Finset.range (fs.length + 1),
      candName stem ext (c + k) ∈ (fs.map OFile.name).toFinset := by
    intro k hk
    have hkk := hall k (Finset.mem_range.mp hk)
    have : occupies fs d (candName stem ext (c + k)) = true := by
      cases hb : occupies fs d (candName stem ext (c + k)) with
      | false => exact absurd hb hkk
      | true => rfl
    rw [occupies, List.any_eq_true] at this
    obtain ⟨g, hg, hgd⟩ := this
    simp only [Bool.and_eq_true, decide_eq_true_eq] at hgd
    rw [List.mem_toFinset]
    exact List.mem_map.mpr ⟨g, hg, hgd.2⟩
  have hcard : (fs.map OFile.name).toFinset.card < (Finset.range (fs.length + 1)).card := by
    have h1 : (fs.map OFile.name).toFinset.card ≤ (fs.map OFile.name).length :=
      (fs.map OFile.name).toFinset_card_le
    simp only [Finset.card_range, List.length_map] at *
    omega
  obtain ⟨x, hx, y, hy, hxy, hfxy⟩ :=
    Finset.exists_ne_map_eq_of_card_lt_of_maps_to hcard hocc
  have := candName_inj stem ext hfxy
  omega

/-- What the basename chosen by `safe_move` satisfies: it is candidate `k`
of the destination stem and suffix for some `k`, it is unoccupied, and
every earlier candidate is occupied — a deterministic linear probe. -/
theorem safe_move_name_spec (fs : List OFile) (d : List String) (dstName : String) :
    ∃ k, safe_move_name fs d dstName = candName (pyStem dstName) (pySuffix dstName) k ∧
      occupies fs d (candName (pyStem dstName) (pySuffix dstName) k) = false ∧
      ∀ j, j < k → occupies fs d (candName (pyStem dstName) (pySuffix dstName) j) = true := by
  obtain ⟨k, hk, hfree⟩ :=
    exists_free_cand fs d (pyStem dstName) (pySuffix dstName) 0
  obtain ⟨k', heq, hfree', hall'⟩ :=
    probeAux_free (occupies fs d) (pyStem dstName) (pySuffix dstName) (fs.length + 1) 0
      ⟨k, hk, hfree⟩
  refine ⟨k', ?_, ?_, ?_⟩
  · simpa using heq
  · simpa using hfree'
  · intro j hj
    simpa using hall' j hj

theorem seenLookup_none_iff (h : List Nat) :
    ∀ seen, seenLookup h seen = none ↔ h ∉ seenKeys seen := by
  intro seen
  induction seen with
  | nil => simp [seenLookup, seenKeys]
  | cons kv rest ih =>
    obtain ⟨k, v⟩ := kv
    by_cases hk : k = h
    · subst hk
      simp [seenLookup, seenKeys]
    · have hk2 : ¬h = k := fun hh => hk hh.symm
      simp [seenLookup, seenKeys, hk, hk2] at ih ⊢
      simpa [seenKeys] using ih

theorem seenLookup_some_mem {h : List Nat} {seen} {p} (hl : seenLookup h seen = some p) :
    h ∈ seenKeys seen := by
  by_contra hn
  rw [← seenLookup_none_iff, hl] at hn
  exact Option.noConfusion hn

theorem safe_move_name_is_cand (fs : List OFile) (d : List String) (dstName : String) :
    ∃ k, safe_move_name fs d dstName = candName (pyStem dstName) (pySuffix dstName) k := by
  obtain ⟨k, hk⟩ :=
    probeAux_is_cand (occupies fs d) (pyStem dstName) (pySuffix dstName) (fs.length + 1) 0
  exact ⟨k, by simpa using hk⟩

theorem isSkipped_false (f : OFile) :
    isSkipped f = false ↔ underDuplicates f.dir = false ∧ hiddenName f.name = false ∧
      extOf f.name ∈ MEDIA_EXTS := by
  simp [isSkipped, and_assoc]

theorem orgStep_skipped (st : OrgState) (f : OFile) (rest : List OFile)
    (h : isSkipped f = true) :
    orgStep st f rest = { st with placed := st.placed ++ [f] } := by
  by_cases h1 : underDuplicates f.dir = true
  · simp [orgStep, h1]
  · have h1f : underDuplicates f.dir = false := by simpa using h1
    by_cases h2 : hiddenName f.name = true
    · simp [orgStep, h1f, h2]
    · have h2f : hiddenName f.name = false := by simpa using h2
      have h3 : extOf f.name ∉ MEDIA_EXTS := by
        rw [isSkipped, h1f, h2f] at h
        simpa using h
      simp [orgStep, h1f, h2f, h3]

/-- A computed target directory is never inside the quarantine subtree: its
first component is a month folder name, which starts with a digit while the
quarantine folder name starts with an underscore. -/
theorem underDuplicates_targetDir (f : OFile) : underDuplicates (targetDir f) = false := by
  have h := monthFolderName_ne_duplicates (get_capture_datetime f)
  simp [underDuplicates, targetDir, h]

/-- Structural description of a whole walk segment: the run appends one
output record per walked file, and each output is related to its input by
`Outcome` under the evolving ghost hash list. -/
theorem orgRun_spec : ∀ (pending : List OFile) (st : OrgState),
    ∃ outs, (orgRun st pending).placed = st.placed ++ outs ∧
      OutcomesRel (seenKeys st.seen) pending outs := by
  intro pending
  induction pending with
  | nil => intro st; exact ⟨[], by simp [orgRun], OutcomesRel.nil _⟩
  | cons f rest ih =>
    intro st
    by_cases hskip : isSkipped f = true
    · obtain ⟨outs, hplaced, hrel⟩ := ih { st with placed := st.placed ++ [f] }
      refine ⟨f :: outs, ?_, ?_⟩
      · show (orgRun (orgStep st f rest) rest).placed = _
        rw [orgStep_skipped st f rest hskip, hplaced]
        simp
      · refine OutcomesRel.cons
          ⟨rfl, rfl, ?_, ⟨0, (stem_append_suffix f.name).symm⟩, fun _ => rfl⟩ ?_
        · rw [finalDirSpec, if_pos hskip]
        · have hh : procHashes (seenKeys st.seen) f = seenKeys st.seen := by
            simp [procHashes, hskip]
          rw [hh]
          exact hrel
    · have hskipf : isSkipped f = false := by simpa using hskip
      obtain ⟨h1f, h2f, h3⟩ := (isSkipped_false f).mp hskipf
      cases hl : seenLookup (file_hash f.content) st.seen with
      | some p =>
        have hmem : file_hash f.content ∈ seenKeys st.seen := seenLookup_some_mem hl
        obtain ⟨outs, hplaced, hrel⟩ := ih
          { placed := st.placed ++ [reloc f duplicatesDir (safe_move_name (st.placed ++ rest) duplicatesDir f.name)],
            seen := st.seen, moves := st.moves + 1 }
        refine ⟨reloc f duplicatesDir (safe_move_name (st.placed ++ rest) duplicatesDir f.name) :: outs, ?_, ?_⟩
        · show (orgRun (orgStep st f rest) rest).placed = _
          have hstep : orgStep st f rest =
              { placed := st.placed ++ [reloc f duplicatesDir (safe_move_name (st.placed ++ rest) duplicatesDir f.name)],
                seen := st.seen, moves := st.moves + 1 } := by
            simp [orgStep, h1f, h2f, h3, hl]
          rw [hstep, hplaced]
          simp
        · refine OutcomesRel.cons
            ⟨rfl, rfl, ?_, safe_move_name_is_cand (st.placed ++ rest) duplicatesDir f.name,
              fun hcon => absurd hcon hskip⟩ ?_
          · show duplicatesDir = _
            rw [finalDirSpec, if_neg hskip, if_pos hmem]
          · have hh : procHashes (seenKeys st.seen) f = seenKeys st.seen := by
              simp [procHashes, hskipf, hmem]
            rw [hh]
            exact hrel
      | none =>
        have hnmem : file_hash f.content ∉ seenKeys st.seen :=
          (seenLookup_none_iff _ _).mp hl
        by_cases hdir : f.dir = targetDir f
        · obtain ⟨outs, hplaced, hrel⟩ := ih
            { placed := st.placed ++ [f],
              seen := st.seen ++ [(file_hash f.content, (f.dir, f.name))],
              moves := st.moves }
          refine ⟨f :: outs, ?_, ?_⟩
          · show (orgRun (orgStep st f rest) rest).placed = _
            have hstep : orgStep st f rest =
                { placed := st.placed ++ [f],
                  seen := st.seen ++ [(file_hash f.content, (f.dir, f.name))],
                  moves := st.moves } := by
              simp [orgStep, h1f, h2f, h3, hl, hdir, underDuplicates_targetDir f]
            rw [hstep, hplaced]
            simp
          · refine OutcomesRel.cons
              ⟨rfl, rfl, ?_, ⟨0, (stem_append_suffix f.name).symm⟩,
                fun _ => rfl⟩ ?_
            · rw [finalDirSpec, if_neg hskip, if_neg hnmem]
              exact hdir
            · have hn2 : file_hash f.content ∉ List.map Prod.fst st.seen := hnmem
              have hh : seenKeys (st.seen ++ [(file_hash f.content, (f.dir, f.name))]) =
                  procHashes (seenKeys st.seen) f := by
                simp [seenKeys, procHashes, hskipf, hn2]
              rw [hh] at hrel
              exact hrel
        · obtain ⟨outs, hplaced, hrel⟩ := ih
            { placed := st.placed ++ [reloc f (targetDir f) (safe_move_name (st.placed ++ rest) (targetDir f) f.name)],
              seen := st.seen ++ [(file_hash f.content, (f.dir, f.name))],
              moves := st.moves + 1 }
          refine ⟨reloc f (targetDir f) (safe_move_name (st.placed ++ rest) (targetDir f) f.name) :: outs, ?_, ?_⟩
          · show (orgRun (orgStep st f rest) rest).placed = _
            have hstep : orgStep st f rest =
                { placed := st.placed ++ [reloc f (targetDir f) (safe_move_name (st.placed ++ rest) (targetDir f) f.name)],
                  seen := st.seen ++ [(file_hash f.content, (f.dir, f.name))],
                  moves := st.moves + 1 } := by
              simp [orgStep, h1f, h2f, h3, hl, hdir]
            rw [hstep, hplaced]
            simp
          · refine OutcomesRel.cons
              ⟨rfl, rfl, ?_, safe_move_name_is_cand (st.placed ++ rest) (targetDir f) f.name,
                fun hcon => absurd hcon hskip⟩ ?_
            · show targetDir f = _
              rw [finalDirSpec, if_neg hskip, if_neg hnmem]
            · have hn2 : file_hash f.content ∉ List.map Prod.fst st.seen := hnmem
              have hh : seenKeys (st.seen ++ [(file_hash f.content, (f.dir, f.name))]) =
                  procHashes (seenKeys st.seen) f := by
                simp [seenKeys, procHashes, hskipf, hn2]
              rw [hh] at hrel
              exact hrel

theorem pairsWithHash_cons (f g : OFile) (fs outs : List OFile) (h : List Nat) :
    pairsWithHash (f :: fs) (g :: outs) h =
      if isSkipped f = false ∧ file_hash f.content = h
      then (f, g) :: pairsWithHash fs outs h
      else pairsWithHash fs outs h := by
  by_cases h1 : isSkipped f = false
  · by_cases h2 : file_hash f.content = h
    · simp [pairsWithHash, processedPairs, h1, h2]
    · simp [pairsWithHash, processedPairs, h1, h2]
  · have h1t : isSkipped f = true := by
      cases hb : isSkipped f with
      | false => exact absurd hb h1
      | true => rfl
    simp [pairsWithHash, processedPairs, h1t]

/-- Within one walk segment related by `OutcomesRel`: if the hash is already
in the ghost list every matching processed file is quarantined; if it is
new, the first matching processed file ends in its computed target directory
and every later one is quarantined. -/
theorem outcomes_hash_structure (h : List Nat) :
    ∀ {prev fs outs}, OutcomesRel prev fs outs →
      (h ∈ prev → ∀ p ∈ pairsWithHash fs outs h, p.2.dir = duplicatesDir) ∧
      (h ∉ prev → ∀ p0 rest, pairsWithHash fs outs h = p0 :: rest →
        p0.2.dir = targetDir p0.1 ∧ ∀ q ∈ rest, q.2.dir = duplicatesDir) := by
  intro prev fs outs hrel
  induction hrel with
  | nil prev =>
    constructor
    · intro _ p hp
      simp [pairsWithHash, processedPairs] at hp
    · intro _ p0 rest hp
      simp [pairsWithHash, processedPairs] at hp
  | @cons prev f g fs gs hout hrest ih =>
    obtain ⟨hc, hm, hd, hn, hs⟩ := hout
    by_cases hskip : isSkipped f = true
    · have hpair : pairsWithHash (f :: fs) (g :: gs) h = pairsWithHash fs gs h := by
        rw [pairsWithHash_cons, if_neg]
        intro hcon
        rw [hcon.1] at hskip
        exact Bool.noConfusion hskip
      have hprev : procHashes prev f = prev := by simp [procHashes, hskip]
      rw [hprev] at ih
      rw [hpair]
      exact ih
    · have hskipf : isSkipped f = false := by simpa using hskip
      by_cases hh : file_hash f.content = h
      · have hpair : pairsWithHash (f :: fs) (g :: gs) h =
            (f, g) :: pairsWithHash fs gs h := by
          rw [pairsWithHash_cons, if_pos ⟨hskipf, hh⟩]
        by_cases hmem : h ∈ prev
        · have hprev : procHashes prev f = prev := by
            simp [procHashes, hskipf, hh ▸ hmem]
          rw [hprev] at ih
          constructor
          · intro _ p hp
            rw [hpair] at hp
            rcases List.mem_cons.mp hp with rfl | hp
            · rw [hd, finalDirSpec, if_neg, if_pos (hh ▸ hmem)]
              intro hcon
              rw [hcon] at hskipf
              exact Bool.noConfusion hskipf
            · exact ih.1 hmem p hp
          · intro hnot
            exact absurd hmem hnot
        · have hprev : procHashes prev f = prev ++ [h] := by
            rw [procHashes, if_neg, if_neg, hh]
            · rw [hh]; exact hmem
            · intro hcon
              rw [hcon] at hskipf
              exact Bool.noConfusion hskipf
          rw [hprev] at ih
          constructor
          · intro hcon
            exact absurd hcon hmem
          · intro _ p0 rest hp
            rw [hpair] at hp
            obtain ⟨rfl, rfl⟩ : (f, g) = p0 ∧ pairsWithHash fs gs h = rest := by
              constructor
              · exact (List.cons.injEq _ _ _ _ ▸ hp).1.symm ▸ rfl
              · exact (List.cons.injEq _ _ _ _ ▸ hp).2
            constructor
            · rw [hd, finalDirSpec, if_neg, if_neg]
              · rw [hh]; exact hmem
              · intro hcon
                rw [hcon] at hskipf
                exact Bool.noConfusion hskipf
            · intro q hq
              exact ih.1 (by simp) q hq
      · have hpair : pairsWithHash (f :: fs) (g :: gs) h = pairsWithHash fs gs h := by
          rw [pairsWithHash_cons, if_neg]
          intro hcon
          exact hh hcon.2
        rw [hpair]
        by_cases hmem : h ∈ prev
        · have hmem2 : h ∈ procHashes prev f := by
            rw [procHashes, if_neg hskip]
            by_cases hb2 : file_hash f.content ∈ prev
            · rw [if_pos hb2]; exact hmem
            · rw [if_neg hb2]; exact List.mem_append_left _ hmem
          constructor
          · intro _ p hp
            exact ih.1 hmem2 p hp
          · intro hnot
            exact absurd hmem hnot
        · have hmem2 : h ∉ procHashes prev f := by
            rw [procHashes, if_neg hskip]
            by_cases hb2 : file_hash f.content ∈ prev
            · rw [if_pos hb2]; exact hmem
            · rw [if_neg hb2]
              intro hcon
              rcases List.mem_append.mp hcon with hcon | hcon
              · exact hmem hcon
              · rw [List.mem_singleton] at hcon
                exact hh hcon.symm
          constructor
          · intro hcon
            exact absurd hcon hmem
          · intro _ p0 rest hp
            exact ih.2 hmem2 p0 rest hp

theorem underDuplicates_duplicatesDir : underDuplicates duplicatesDir = true := by decide

theorem isSkipped_of_dup_dir (g : OFile) (h : g.dir = duplicatesDir) :
    isSkipped g = true := by
  rw [isSkipped, h, underDuplicates_duplicatesDir]
  rfl

/-- Relating the target directories of a file and of its renamed copy: the
classification consults only the metadata and the lowercased suffix. -/
theorem targetDir_congr (f g : OFile) (hm : g.meta = f.meta)
    (hext : extOf g.name = extOf f.name) : targetDir g = targetDir f := by
  simp only [targetDir, get_capture_datetime, has_gps_exif, hm, hext]

theorem extOf_empty_not_media : "" ∉ MEDIA_EXTS := by decide

theorem pySuffix_ne_nil_of_media (name : String) (h : extOf name ∈ MEDIA_EXTS) :
    (pySuffix name).data ≠ [] := by
  intro hnil
  have hext : extOf name = "" := by
    have : (extOf name).data = [] := by
      show ((pySuffix name).data.map Char.toLower) = []
      rw [hnil]
      rfl
    exact string_eq_of_data this
  rw [hext] at h
  exact extOf_empty_not_media h

/-- A processed file deposited at its computed target directory is itself a
non-skipped media file already sitting in its own computed target
directory: the probe kept its suffix and leading character, and a target
directory is never inside quarantine. -/
theorem canon_out_processed (f g : OFile) (hskipf : isSkipped f = false)
    (hc : g.content = f.content) (hm : g.meta = f.meta) (hd : g.dir = targetDir f)
    (hn : ∃ k, g.name = candName (pyStem f.name) (pySuffix f.name) k) :
    isSkipped g = false ∧ g.dir = targetDir g := by
  obtain ⟨h1f, h2f, h3⟩ := (isSkipped_false f).mp hskipf
  have hsuf : (pySuffix f.name).data ≠ [] := pySuffix_ne_nil_of_media f.name h3
  obtain ⟨k, hk⟩ := hn
  obtain ⟨hsufeq, hhead⟩ := candName_keeps_suffix_head f.name hsuf k
  have hext : extOf g.name = extOf f.name := by
    unfold extOf
    rw [hk, hsufeq]
  have htd : targetDir g = targetDir f := targetDir_congr f g hm hext
  have h1g : underDuplicates g.dir = false := by
    rw [hd]
    exact underDuplicates_targetDir f
  have h2g : hiddenName g.name = false := by
    rw [hiddenName_eq_head] at h2f ⊢
    rw [hk, hhead]
    exact h2f
  have h3g : extOf g.name ∈ MEDIA_EXTS := hext ▸ h3
  refine ⟨(isSkipped_false g).mpr ⟨h1g, h2g, h3g⟩, ?_⟩
  rw [hd, htd]

/-- What an output that is itself not skipped tells about its input: the
input was processed, its hash was new, and the output sits in the input's
computed target directory. -/
theorem out_not_skipped_cases {prev : List (List Nat)} {f g : OFile}
    (ho : Outcome prev f g) (hg : isSkipped g = false) :
    isSkipped f = false ∧ file_hash f.content ∉ prev ∧ g.dir = targetDir f := by
  obtain ⟨hc, hm, hd, hn, hs⟩ := ho
  by_cases hskip : isSkipped f = true
  · rw [hs hskip] at hg
    rw [hg] at hskip
    exact Bool.noConfusion hskip
  · have hskipf : isSkipped f = false := by simpa using hskip
    by_cases hmem : file_hash f.content ∈ prev
    · exfalso
      rw [finalDirSpec, if_neg hskip, if_pos hmem] at hd
      rw [isSkipped_of_dup_dir g hd] at hg
      exact Bool.noConfusion hg
    · rw [finalDirSpec, if_neg hskip, if_neg hmem] at hd
      exact ⟨hskipf, hmem, hd⟩

/-- Output-level hash freshness and distinctness: an output that is not
skipped has a content hash outside the ghost list, and two non-skipped
outputs of one walk segment never share a content hash. -/
theorem outcomes_out_hashes :
    ∀ {prev fs outs}, OutcomesRel prev fs outs →
      (∀ p ∈ fs.zip outs, isSkipped p.2 = false → file_hash p.2.content ∉ prev) ∧
      (fs.zip outs).Pairwise (fun p q =>
        isSkipped p.2 = false → isSkipped q.2 = false →
        file_hash p.2.content ≠ file_hash q.2.content) := by
  intro prev fs outs hrel
  induction hrel with
  | nil prev => constructor <;> simp
  | @cons prev f g fs gs hout hrest ih =>
    have hzip : (f :: fs).zip (g :: gs) = (f, g) :: fs.zip gs := rfl
    have hsub : ∀ x, x ∉ procHashes prev f → x ∉ prev := by
      intro x hx hmem
      apply hx
      rw [procHashes]
      by_cases hb : isSkipped f = true
      · rw [if_pos hb]; exact hmem
      · rw [if_neg hb]
        by_cases hb2 : file_hash f.content ∈ prev
        · rw [if_pos hb2]; exact hmem
        · rw [if_neg hb2]; exact List.mem_append_left _ hmem
    constructor
    · intro p hp hps
      rw [hzip] at hp
      rcases List.mem_cons.mp hp with rfl | hp
      · obtain ⟨hskipf, hfresh, _⟩ := out_not_skipped_cases hout hps
        obtain ⟨hc, _, _, _, _⟩ := hout
        show file_hash g.content ∉ prev
        rw [congrArg file_hash hc]
        exact hfresh
      · exact hsub _ (ih.1 p hp hps)
    · rw [hzip]
      refine List.Pairwise.cons ?_ ih.2
      intro q hq hg hq2
      obtain ⟨hskipf, hfresh, _⟩ := out_not_skipped_cases hout hg
      obtain ⟨hc, _, _, _, _⟩ := hout
      have hprev2 : procHashes prev f = prev ++ [file_hash f.content] := by
        rw [procHashes, if_neg, if_neg hfresh]
        intro hcon
        rw [hcon] at hskipf
        exact Bool.noConfusion hskipf
      have hqfresh := ih.1 q hq hq2
      rw [hprev2] at hqfresh
      intro heq
      apply hqfresh
      apply List.mem_append_right
      rw [← heq]
      show file_hash g.content ∈ [file_hash f.content]
      rw [congrArg file_hash hc]
      exact List.mem_singleton.mpr rfl

/-- Every output of a walk segment is either itself skipped (it ends under
quarantine or was skipped unchanged) or sits in its own computed target
directory. -/
theorem outcomes_skip_or_canon :
    ∀ {prev fs outs}, OutcomesRel prev fs outs →
      ∀ p ∈ fs.zip outs, isSkipped p.2 = true ∨ p.2.dir = targetDir p.2 := by
  intro prev fs outs hrel
  induction hrel with
  | nil _ => simp
  | @cons prev f g fs gs hout hrest ih =>
    intro p hp
    rcases List.mem_cons.mp hp with rfl | hp
    · by_cases hg : isSkipped g = true
      · exact Or.inl hg
      · have hgf : isSkipped g = false := by simpa using hg
        obtain ⟨hskipf, hfresh, hd⟩ := out_not_skipped_cases hout hgf
        obtain ⟨hc, hm, _, hn, _⟩ := hout
        exact Or.inr (canon_out_processed f g hskipf hc hm hd hn).2
    · exact ih p hp

/-- A walk over an organized snapshot performs not a single move: every
file is either skipped or already sits in its computed target directory,
and since the hashes of the non-skipped files are fresh and pairwise
distinct no duplicate redirection fires either.  The placed list is the
input unchanged and the move counter never advances. -/
theorem orgRun_no_moves : ∀ (files : List OFile) (st : OrgState),
    (∀ f ∈ files, isSkipped f = true ∨ f.dir = targetDir f) →
    (∀ f ∈ files, isSkipped f = false → file_hash f.content ∉ seenKeys st.seen) →
    List.Pairwise (fun f g => isSkipped f = false → isSkipped g = false →
      file_hash f.content ≠ file_hash g.content) files →
    (orgRun st files).placed = st.placed ++ files ∧ (orgRun st files).moves = st.moves := by
  intro files
  induction files with
  | nil => intro st _ _ _; exact ⟨by simp [orgRun], rfl⟩
  | cons f rest ih =>
    intro st hplace hfresh hpw
    obtain ⟨hpwhead, hpwtail⟩ := List.pairwise_cons.mp hpw
    by_cases hskip : isSkipped f = true
    · have hstep := orgStep_skipped st f rest hskip
      have hseen : (orgStep st f rest).seen = st.seen := by rw [hstep]
      obtain ⟨hp, hm⟩ := ih { st with placed := st.placed ++ [f] }
        (fun g hg => hplace g (List.mem_cons_of_mem f hg))
        (fun g hg hgs => hfresh g (List.mem_cons_of_mem f hg) hgs)
        hpwtail
      constructor
      · show (orgRun (orgStep st f rest) rest).placed = _
        rw [hstep, hp]
        simp
      · show (orgRun (orgStep st f rest) rest).moves = _
        rw [hstep, hm]
    · have hskipf : isSkipped f = false := by simpa using hskip
      obtain ⟨h1f, h2f, h3⟩ := (isSkipped_false f).mp hskipf
      have hdir : f.dir = targetDir f := by
        rcases hplace f (List.mem_cons_self f rest) with hcon | hd
        · exact absurd hcon hskip
        · exact hd
      have hl : seenLookup (file_hash f.content) st.seen = none :=
        (seenLookup_none_iff _ _).mpr (hfresh f (List.mem_cons_self f rest) hskipf)
      have hstep : orgStep st f rest =
          { placed := st.placed ++ [f],
            seen := st.seen ++ [(file_hash f.content, (f.dir, f.name))],
            moves := st.moves } := by
        simp [orgStep, h1f, h2f, h3, hl, hdir, underDuplicates_targetDir f]
      have hkeys : seenKeys (st.seen ++ [(file_hash f.content, (f.dir, f.name))]) =
          seenKeys st.seen ++ [file_hash f.content] := by
        simp [seenKeys]
      obtain ⟨hp, hm⟩ := ih
        { placed := st.placed ++ [f],
          seen := st.seen ++ [(file_hash f.content, (f.dir, f.name))],
          moves := st.moves }
        (fun g hg => hplace g (List.mem_cons_of_mem f hg))
        (fun g hg hgs => by
          show file_hash g.content ∉ seenKeys (st.seen ++ _)
          rw [hkeys]
          intro hcon
          rcases List.mem_append.mp hcon with hcon | hcon
          · exact hfresh g (List.mem_cons_of_mem f hg) hgs hcon
          · exact hpwhead g hg hskipf hgs (List.mem_singleton.mp hcon).symm)
        hpwtail
      constructor
      · show (orgRun (orgStep st f rest) rest).placed = _
        rw [hstep, hp]
        simp
      · show (orgRun (orgStep st f rest) rest).moves = _
        rw [hstep, hm]

theorem outcomes_length : ∀ {prev fs outs}, OutcomesRel prev fs outs →
    fs.length = outs.length := by
  intro prev fs outs hrel
  induction hrel with
  | nil _ => rfl
  | @cons prev f g fs gs hout hrest ih => simp [ih]

theorem mem_zip_of_mem_right {fs outs : List OFile} (hlen : fs.length = outs.length)
    {g : OFile} (hg : g ∈ outs) : ∃ f, (f, g) ∈ fs.zip outs := by
  obtain ⟨i, hi, hgi⟩ := List.mem_iff_getElem.mp hg
  have hfi : i < fs.length := by omega
  refine ⟨fs.get ⟨i, hfi⟩, ?_⟩
  have hz : i < (fs.zip outs).length := by
    rw [List.length_zip]
    omega
  have hmem := List.getElem_mem hz
  rw [List.getElem_zip] at hmem
  rw [← hgi]
  exact hmem

/-- The run output is organized: every deposited file is skipped or sits in
its own computed target directory, and non-skipped deposited files carry
pairwise distinct content hashes. -/
theorem organize_output_organized (L : List OFile) :
    (∀ g ∈ (organize L).placed, isSkipped g = true ∨ g.dir = targetDir g) ∧
    List.Pairwise (fun f g => isSkipped f = false → isSkipped g = false →
      file_hash f.content ≠ file_hash g.content) (organize L).placed := by
  obtain ⟨outs, hplaced, hrel⟩ := orgRun_spec L initState
  have houts : (organize L).placed = outs := by
    show (orgRun initState L).placed = outs
    rw [hplaced]
    rfl
  have hlen := outcomes_length hrel
  constructor
  · intro g hg
    rw [houts] at hg
    obtain ⟨f, hf⟩ := mem_zip_of_mem_right hlen hg
    exact outcomes_skip_or_canon hrel (f, g) hf
  · rw [houts]
    have hzip := (outcomes_out_hashes hrel).2
    have hmap : (L.zip outs).map Prod.snd = outs := List.map_snd_zip L outs (by omega)
    rw [← hmap]
    exact hzip.map Prod.snd (fun a b h => h)

theorem outcomes_hash_symm :
    Symmetric (fun f g : OFile => isSkipped f = false → isSkipped g = false →
      file_hash f.content ≠ file_hash g.content) := by
  intro a b hab hb ha
  exact (hab ha hb).symm

/-- One step either leaves `seen_hashes` unchanged or appends one entry
whose key was not yet present (the lookup-before-insert discipline of the
walk loop). -/
theorem orgStep_seen (st : OrgState) (f : OFile) (rest : List OFile) :
    (orgStep st f rest).seen = st.seen ∨
    (seenLookup (file_hash f.content) st.seen = none ∧
      (orgStep st f rest).seen =
        st.seen ++ [(file_hash f.content, (f.dir, f.name))]) := by
  by_cases hskip : isSkipped f = true
  · left
    rw [orgStep_skipped st f rest hskip]
  · have hskipf : isSkipped f = false := by simpa using hskip
    obtain ⟨h1f, h2f, h3⟩ := (isSkipped_false f).mp hskipf
    cases hl : seenLookup (file_hash f.content) st.seen with
    | some p =>
      left
      simp [orgStep, h1f, h2f, h3, hl]
    | none =>
      right
      refine ⟨rfl, ?_⟩
      by_cases hdir : f.dir = targetDir f
      · simp [orgStep, h1f, h2f, h3, hl, hdir, underDuplicates_targetDir f]
      · simp [orgStep, h1f, h2f, h3, hl, hdir]

/-- The keys of `seen_hashes` stay pairwise distinct along a run. -/
theorem orgRun_seen_nodup : ∀ (files : List OFile) (st : OrgState),
    (seenKeys st.seen).Nodup → (seenKeys (orgRun st files).seen).Nodup := by
  intro files
  induction files with
  | nil => exact fun st h => h
  | cons f rest ih =>
    intro st h
    show (seenKeys (orgRun (orgStep st f rest) rest).seen).Nodup
    apply ih
    rcases orgStep_seen st f rest with heq | ⟨hl, heq⟩
    · rw [heq]
      exact h
    · rw [heq]
      have hnm : file_hash f.content ∉ seenKeys st.seen :=
        (seenLookup_none_iff _ _).mp hl
      have hkeys : seenKeys (st.seen ++ [(file_hash f.content, (f.dir, f.name))]) =
          seenKeys st.seen ++ [file_hash f.content] := by
        simp [seenKeys]
      rw [hkeys]
      refine List.Nodup.append h (List.nodup_singleton _) ?_
      intro x hx hxs
      rw [List.mem_singleton] at hxs
      rw [hxs] at hx
      exact hnm hx

/-! ### Disjointness of the recognized extension sets -/

theorem raw_not_image : ∀ s ∈ RAW_EXTS, s ∉ IMAGE_EXTS := by decide

theorem video_not_image : ∀ s ∈ VIDEO_EXTS, s ∉ IMAGE_EXTS := by decide

theorem raw_not_video : ∀ s ∈ RAW_EXTS, s ∉ VIDEO_EXTS := by decide

theorem image_not_video : ∀ s ∈ IMAGE_EXTS, s ∉ VIDEO_EXTS := by decide

theorem image_not_raw : ∀ s ∈ IMAGE_EXTS, s ∉ RAW_EXTS := by decide

/-! ### Structure of one differential sync walk -/

theorem syncFold_all_present : ∀ (src d : List SFile) (c s : Nat),
    (∀ f ∈ src, ∃ e ∈ d, e.rel = f.rel) →
    syncFold src (d, c, s) = (d, c, s + src.length) := by
  intro src
  induction src with
  | nil => intro d c s _; simp [syncFold]
  | cons f rest ih =>
    intro d c s hpres
    obtain ⟨e, he, herel⟩ := hpres f (List.mem_cons_self f rest)
    have hany : d.any (fun g => decide (g.rel = f.rel)) = true :=
      List.any_eq_true.mpr ⟨e, he, by simpa using herel⟩
    show (if d.any (fun g => decide (g.rel = f.rel)) then
        syncFold rest (d, c, s + 1) else syncFold rest (d ++ [f], c + 1, s)) = _
    rw [if_pos hany, ih d c (s + 1) (fun g hg => hpres g (List.mem_cons_of_mem f hg))]
    have : s + 1 + rest.length = s + (rest.length + 1) := by omega
    rw [this]
    rfl

theorem syncFold_dst : ∀ (src d : List SFile) (c s : Nat),
    ∃ new, (syncFold src (d, c, s)).1 = d ++ new ∧
      (∀ f ∈ new, f ∈ src ∧ ∀ g ∈ d, f.rel ≠ g.rel) ∧
      (∀ f ∈ src, ∃ e ∈ (syncFold src (d, c, s)).1, e.rel = f.rel) := by
  intro src
  induction src with
  | nil =>
    intro d c s
    exact ⟨[], by simp [syncFold], by simp, by simp⟩
  | cons f rest ih =>
    intro d c s
    by_cases hany : d.any (fun g => decide (g.rel = f.rel)) = true
    · have hstep : syncFold (f :: rest) (d, c, s) = syncFold rest (d, c, s + 1) := by
        show (if d.any (fun g => decide (g.rel = f.rel)) then
            syncFold rest (d, c, s + 1) else syncFold rest (d ++ [f], c + 1, s)) = _
        rw [if_pos hany]
      obtain ⟨new, h1, h2, h3⟩ := ih d c (s + 1)
      refine ⟨new, by rw [hstep]; exact h1, ?_, ?_⟩
      · intro f' hf'
        obtain ⟨hmem, hdisj⟩ := h2 f' hf'
        exact ⟨List.mem_cons_of_mem f hmem, hdisj⟩
      intro f' hf'
      rcases List.mem_cons.mp hf' with rfl | hf'
      · obtain ⟨e, he, herel⟩ := List.any_eq_true.mp hany
        refine ⟨e, ?_, by simpa using herel⟩
        rw [hstep, h1]
        exact List.mem_append_left _ he
      · rw [hstep]
        exact h3 f' hf'
    · have hanyf : d.any (fun g => decide (g.rel = f.rel)) = false := by
        simpa using hany
      have hstep : syncFold (f :: rest) (d, c, s) = syncFold rest (d ++ [f], c + 1, s) := by
        show (if d.any (fun g => decide (g.rel = f.rel)) then
            syncFold rest (d, c, s + 1) else syncFold rest (d ++ [f], c + 1, s)) = _
        rw [if_neg (by simp [hanyf])]
      have hnomatch : ∀ g ∈ d, f.rel ≠ g.rel := by
        intro g hg heq
        have : d.any (fun g => decide (g.rel = f.rel)) = true :=
          List.any_eq_true.mpr ⟨g, hg, by simpa using heq.symm⟩
        rw [hanyf] at this
        exact Bool.noConfusion this
      obtain ⟨new, h1, h2, h3⟩ := ih (d ++ [f]) (c + 1) s
      refine ⟨f :: new, ?_, ?_, ?_⟩
      · rw [hstep, h1]
        simp
      · intro f' hf'
        rcases List.mem_cons.mp hf' with rfl | hf'
        · exact ⟨List.mem_cons_self f' rest, hnomatch⟩
        · obtain ⟨hmem, hdisj⟩ := h2 f' hf'
          exact ⟨List.mem_cons_of_mem f hmem,
            fun g hg => hdisj g (List.mem_append_left _ hg)⟩
      · intro f' hf'
        rcases List.mem_cons.mp hf' with rfl | hf'
        · refine ⟨f', ?_, rfl⟩
          rw [hstep, h1]
          exact List.mem_append_left _ (List.mem_append_right _ (List.mem_singleton.mpr rfl))
        · rw [hstep]
          exact h3 f' hf'

/-! ### The claims -/

/-- Claim C7: the metadata resolver never raises — it is a total function
of the file record.  For every image whose embedded DateTimeOriginal chain
cannot be decoded (decode exception, falsy exif mapping, or absent or
unparseable field), and unconditionally for every raw or video file,
`get_capture_datetime` returns the filesystem modification time; the
geo-tagged flag of `has_gps_exif` is true exactly when the file is an
image, its metadata decodes, and a non-empty GPS block is present, and any
decode failure yields false. -/
theorem C7_metadata_resolver (f : OFile) :
    (extOf f.name ∈ RAW_EXTS ∨ extOf f.name ∈ VIDEO_EXTS →
      get_capture_datetime f = f.meta.mtime) ∧
    (extOf f.name ∈ IMAGE_EXTS →
      (f.meta.decodeOk = false ∨ f.meta.exifTruthy = false ∨ f.meta.dto = none) →
      get_capture_datetime f = f.meta.mtime) ∧
    (has_gps_exif f = true ↔
      extOf f.name ∈ IMAGE_EXTS ∧ f.meta.decodeOk = true ∧
        f.meta.exifTruthy = true ∧ f.meta.gpsTruthy = true) ∧
    (f.meta.decodeOk = false → has_gps_exif f = false) := by
  refine ⟨?_, ?_, ?_, ?_⟩
  · intro h
    have hni : extOf f.name ∉ IMAGE_EXTS := by
      rcases h with h | h
      · exact raw_not_image _ h
      · exact video_not_image _ h
    simp [get_capture_datetime, hni]
  · intro hi hfail
    rw [get_capture_datetime, if_pos hi]
    rcases hfail with hf | hf | hf
    · rw [if_neg (by simp [hf])]
    · by_cases hdk : f.meta.decodeOk = true
      · rw [if_pos hdk, if_neg (by simp [hf])]
      · rw [if_neg hdk]
    · by_cases hdk : f.meta.decodeOk = true
      · rw [if_pos hdk]
        by_cases het : f.meta.exifTruthy = true
        · rw [if_pos het, hf]
        · rw [if_neg het]
      · rw [if_neg hdk]
  · by_cases hi : extOf f.name ∈ IMAGE_EXTS
    · by_cases hdk : f.meta.decodeOk = true
      · by_cases het : f.meta.exifTruthy = true
        · simp [has_gps_exif, hi, hdk, het]
        · simp [has_gps_exif, hi, hdk, het]
      · simp [has_gps_exif, hi, hdk]
    · simp [has_gps_exif, hi]
  · intro hdk
    by_cases hi : extOf f.name ∈ IMAGE_EXTS
    · simp [has_gps_exif, hi, hdk]
    · simp [has_gps_exif, hi]

theorem C7_metadata_resolver_witness :
    get_capture_datetime exBadImage = exBadImage.meta.mtime ∧
    has_gps_exif exBadImage = false ∧
    get_capture_datetime exRawGps = exRawGps.meta.mtime :=
  ⟨(C7_metadata_resolver exBadImage).2.1 (by decide) (Or.inl (by decide)),
   (C7_metadata_resolver exBadImage).2.2.2 (by decide),
   (C7_metadata_resolver exRawGps).1 (Or.inl (by decide))⟩

/-- Claim C9: path classification is a pure deterministic function of the
(category, geo flag) pair matching the rule table exactly: video maps to
video/ and never gains a geo subdivision, non-raw images map to jpeg/ or
geo/jpeg/ according to the flag, and raw maps to raw/ or geo/raw/. -/
theorem C9_classification_table (ext : String) (geo : Bool) :
    (ext ∈ VIDEO_EXTS → classifiedLeaf ext geo = ["video"]) ∧
    (ext ∈ IMAGE_EXTS →
      classifiedLeaf ext geo = if geo then ["geo", "jpeg"] else ["jpeg"]) ∧
    (ext ∈ RAW_EXTS →
      classifiedLeaf ext geo = if geo then ["geo", "raw"] else ["raw"]) := by
  refine ⟨?_, ?_, ?_⟩
  · intro h
    simp [classifiedLeaf, h]
  · intro h
    have hv : ext ∉ VIDEO_EXTS := image_not_video ext h
    have hr : ext ∉ RAW_EXTS := image_not_raw ext h
    simp [classifiedLeaf, hv, hr]
  · intro h
    have hv : ext ∉ VIDEO_EXTS := raw_not_video ext h
    simp [classifiedLeaf, hv, h]

theorem C9_classification_table_witness :
    classifiedLeaf ".mp4" true = ["video"] ∧
    classifiedLeaf ".jpg" false = ["jpeg"] ∧
    classifiedLeaf ".raf" true = ["geo", "raw"] :=
  ⟨(C9_classification_table ".mp4" true).1 (by decide),
   (C9_classification_table ".jpg" false).2.1 (by decide),
   (C9_classification_table ".raf" true).2.2 (by decide)⟩

/-- Claim C2 is false on the code: this raw file (extension `.raf`) carries
a non-empty GPS metadata block, yet the organizer resolves its geo flag to
`false` — `has_gps_exif` returns `False` for every suffix outside the
image set before any decoding — and places it under `.../raw/`, not the
`.../geo/raw/` suffix the claim prescribes. -/
theorem C2_raw_gps_counterexample :
    extOf exRawGps.name ∈ RAW_EXTS ∧
    exRawGps.meta.gpsTruthy = true ∧ exRawGps.meta.decodeOk = true ∧
    has_gps_exif exRawGps = false ∧
    targetDir exRawGps = ["2025-03", "2025-03-14", "raw"] ∧
    targetDir exRawGps ≠ ["2025-03", "2025-03-14", "geo", "raw"] := by
  decide

/-- Claim C2 amended: a raw-category file is never resolved as geo-tagged —
`has_gps_exif` is false for every file whose suffix is not in the image
set, whatever its GPS metadata — so every raw file is placed under the
day's `raw/` folder; the (raw, geo-tagged = true) row of the rule table is
unreachable through `has_gps_exif`. -/
theorem C2_amended_raw_never_geo (f : OFile) (h : extOf f.name ∈ RAW_EXTS) :
    has_gps_exif f = false ∧
    targetDir f = [monthFolderName (get_capture_datetime f),
      dayFolderName (get_capture_datetime f), "raw"] := by
  have hi : extOf f.name ∉ IMAGE_EXTS := raw_not_image _ h
  have hv : extOf f.name ∉ VIDEO_EXTS := raw_not_video _ h
  have hg : has_gps_exif f = false := by simp [has_gps_exif, hi]
  refine ⟨hg, ?_⟩
  simp [targetDir, classifiedLeaf, hv, h, hg]

theorem C2_amended_raw_never_geo_witness :
    has_gps_exif exRawGps = false ∧
    targetDir exRawGps = [monthFolderName (get_capture_datetime exRawGps),
      dayFolderName (get_capture_datetime exRawGps), "raw"] :=
  C2_amended_raw_never_geo exRawGps (by decide)

/-- Claim C8: `safe_copy` catches exactly the `OSError` class — the
exception raised when the destination filesystem rejects attribute
preservation — emitting one warning and retrying as a plain byte copy; a
successful first attempt neither warns nor retries, every other failure of
the first attempt propagates to the caller untouched, and any failure of
the plain-copy retry propagates. -/
theorem C8_safe_copy_error_classes (env : CopyEnv) :
    (env.copy2 = none → safe_copy env = (CopyResult.preserved, 0)) ∧
    ((safe_copy env).2 = 1 ↔ env.copy2 = some PyErr.osError) ∧
    (env.copy2 = some PyErr.otherError →
      safe_copy env = (CopyResult.raised PyErr.otherError, 0)) ∧
    (env.copy2 = some PyErr.osError → env.copyfile = none →
      safe_copy env = (CopyResult.plain, 1)) ∧
    (env.copy2 = some PyErr.osError → ∀ e, env.copyfile = some e →
      safe_copy env = (CopyResult.raised e, 1)) := by
  obtain ⟨c2, cf⟩ := env
  cases c2 with
  | none => simp [safe_copy]
  | some e =>
    cases e with
    | osError =>
      cases cf with
      | none => simp [safe_copy]
      | some e2 => simp [safe_copy]
    | otherError =>
      cases cf with
      | none => simp [safe_copy]
      | some e2 => simp [safe_copy]

theorem C8_safe_copy_error_classes_witness :
    safe_copy ⟨some PyErr.osError, none⟩ = (CopyResult.plain, 1) ∧
    safe_copy ⟨some PyErr.osError, some PyErr.osError⟩ =
      (CopyResult.raised PyErr.osError, 1) ∧
    safe_copy ⟨some PyErr.otherError, none⟩ =
      (CopyResult.raised PyErr.otherError, 0) :=
  ⟨(C8_safe_copy_error_classes ⟨some PyErr.osError, none⟩).2.2.2.1 rfl rfl,
   (C8_safe_copy_error_classes ⟨some PyErr.osError, some PyErr.osError⟩).2.2.2.2
     rfl PyErr.osError rfl,
   (C8_safe_copy_error_classes ⟨some PyErr.otherError, none⟩).2.2.1 rfl⟩

/-- Claim C10: `is_month_folder` accepts exactly the names of length 7
whose fifth character (index 4) is a dash and whose remaining six
characters are all digits; it performs no range validation of the month
slice, so `2025-00` and `2025-99` are accepted — and selected as SyncUnits
by the month-folder filter of `main` — while `2025-3` is rejected. -/
theorem C10_is_month_folder :
    (∀ name : String, is_month_folder name = true ↔
      (name.data.length = 7 ∧ name.data[4]? = some '-' ∧
        (∀ c ∈ name.data.take 4, c.isDigit = true) ∧
        (∀ c ∈ name.data.drop 5, c.isDigit = true))) ∧
    is_month_folder "2025-00" = true ∧
    is_month_folder "2025-99" = true ∧
    is_month_folder "2025-3" = false ∧
    month_folders [("2025-99", true), ("2025-3", true), ("2025-00", true),
      ("_inbox", true)] = ["2025-00", "2025-99"] := by
  refine ⟨?_, by decide, by decide, by decide, by decide⟩
  intro name
  rw [is_month_folder]
  by_cases hlen : name.data.length = 7
  · rw [if_neg (show ¬name.data.length ≠ 7 from fun hc => hc hlen)]
    by_cases hdash : name.data[4]? = some '-'
    · rw [if_neg (show ¬name.data[4]? ≠ some '-' from fun hc => hc hdash)]
      have ht4 : (name.data.take 4).isEmpty = false := by
        have : (name.data.take 4).length = 4 := by
          rw [List.length_take]
          omega
        cases hc : name.data.take 4 with
        | nil => rw [hc] at this; simp at this
        | cons a l => rfl
      have hd5 : (name.data.drop 5).isEmpty = false := by
        have : (name.data.drop 5).length = 2 := by
          rw [List.length_drop]
          omega
        cases hc : name.data.drop 5 with
        | nil => rw [hc] at this; simp at this
        | cons a l => rfl
      simp [pyIsdigit, ht4, hd5, List.all_eq_true, hlen, hdash]
    · rw [if_pos hdash]
      simp [hdash]
  · rw [if_pos hlen]
    have hlen2 : ¬name.length = 7 := hlen
    simp [hlen, hlen2]

theorem C10_is_month_folder_witness : is_month_folder "2025-00" = true :=
  C10_is_month_folder.2.1

/-- Claim C5: collision-safe placement.  Moving two files of distinct
content to the same destination path leaves every pre-existing file
untouched and deposits the two files at two distinct basenames of the
target directory, each with its original content and neither overwriting
anything: each deposited basename was unoccupied when chosen, and it is
the candidate of the deterministic linear probe `dstName`, `stem_1`,
`stem_2`, ... whose every earlier candidate was occupied. -/
theorem C5_collision_safe_placement (fs : List OFile) (f1 f2 : OFile)
    (d : List String) (dstName : String) (hne : f1.content ≠ f2.content) :
    ∃ g1 g2,
      safe_move (safe_move fs f1 d dstName) f2 d dstName = fs ++ [g1] ++ [g2] ∧
      g1.content = f1.content ∧ g2.content = f2.content ∧
      g1.dir = d ∧ g2.dir = d ∧ g1.name ≠ g2.name ∧
      occupies fs d g1.name = false ∧
      occupies (fs ++ [g1]) d g2.name = false ∧
      (∃ k1, g1.name = candName (pyStem dstName) (pySuffix dstName) k1 ∧
        ∀ j < k1,
          occupies fs d (candName (pyStem dstName) (pySuffix dstName) j) = true) ∧
      (∃ k2, g2.name = candName (pyStem dstName) (pySuffix dstName) k2 ∧
        ∀ j < k2,
          occupies (fs ++ [g1]) d
            (candName (pyStem dstName) (pySuffix dstName) j) = true) := by
  obtain ⟨k1, hk1, hfree1, hall1⟩ := safe_move_name_spec fs d dstName
  have hfs1 : safe_move fs f1 d dstName =
      fs ++ [{ f1 with dir := d, name := safe_move_name fs d dstName }] := rfl
  obtain ⟨k2, hk2, hfree2, hall2⟩ :=
    safe_move_name_spec (safe_move fs f1 d dstName) d dstName
  refine ⟨{ f1 with dir := d, name := safe_move_name fs d dstName },
    { f2 with dir := d, name := safe_move_name (safe_move fs f1 d dstName) d dstName },
    ?_, rfl, rfl, rfl, rfl, ?_, ?_, ?_, ?_, ?_⟩
  · show safe_move (safe_move fs f1 d dstName) f2 d dstName = _
    rw [hfs1]
    rfl
  · intro heq
    have hocc : occupies (safe_move fs f1 d dstName) d
        (safe_move_name (safe_move fs f1 d dstName) d dstName) = true := by
      rw [occupies, List.any_eq_true]
      refine ⟨{ f1 with dir := d, name := safe_move_name fs d dstName }, ?_, ?_⟩
      · rw [hfs1]
        exact List.mem_append_right _ (List.mem_singleton.mpr rfl)
      · have heq2 : safe_move_name fs d dstName =
            safe_move_name (safe_move fs f1 d dstName) d dstName := heq
        simp [heq2]
    rw [hk2] at hocc
    rw [hocc] at hfree2
    exact Bool.noConfusion hfree2
  · rw [hk1]
    exact hfree1
  · rw [← hfs1, hk2]
    exact hfree2
  · exact ⟨k1, hk1, hall1⟩
  · refine ⟨k2, hk2, ?_⟩
    intro j hj
    rw [← hfs1]
    exact hall2 j hj

theorem C5_collision_safe_placement_witness :
    exNew1.content ≠ exNew2.content ∧
    ∃ g1 g2,
      safe_move (safe_move [exOrig] exNew1 ["2025-03", "2025-03-14", "jpeg"]
          "IMG_0001.JPG") exNew2 ["2025-03", "2025-03-14", "jpeg"] "IMG_0001.JPG" =
        [exOrig] ++ [g1] ++ [g2] ∧
      g1.content = exNew1.content ∧ g2.content = exNew2.content ∧
      g1.dir = ["2025-03", "2025-03-14", "jpeg"] ∧
      g2.dir = ["2025-03", "2025-03-14", "jpeg"] ∧ g1.name ≠ g2.name ∧
      occupies [exOrig] ["2025-03", "2025-03-14", "jpeg"] g1.name = false ∧
      occupies ([exOrig] ++ [g1]) ["2025-03", "2025-03-14", "jpeg"] g2.name = false ∧
      (∃ k1, g1.name = candName (pyStem "IMG_0001.JPG") (pySuffix "IMG_0001.JPG") k1 ∧
        ∀ j < k1, occupies [exOrig] ["2025-03", "2025-03-14", "jpeg"]
          (candName (pyStem "IMG_0001.JPG") (pySuffix "IMG_0001.JPG") j) = true) ∧
      (∃ k2, g2.name = candName (pyStem "IMG_0001.JPG") (pySuffix "IMG_0001.JPG") k2 ∧
        ∀ j < k2, occupies ([exOrig] ++ [g1]) ["2025-03", "2025-03-14", "jpeg"]
          (candName (pyStem "IMG_0001.JPG") (pySuffix "IMG_0001.JPG") j) = true) :=
  ⟨by decide,
   C5_collision_safe_placement [exOrig] exNew1 exNew2
     ["2025-03", "2025-03-14", "jpeg"] "IMG_0001.JPG" (by decide)⟩

/-- Claim C4: sync additivity.  Every destination file present before the
run is still present afterwards at the same relative path with the same
content: the destination list only grows at its end, and the newly copied
files occupy relative paths no pre-existing destination file had — nothing
is deleted or overwritten, on the whole-folder fast path (`dst = none`)
and the differential path alike.  The source is read-only by construction
of the embedding (no operation of the engine produces a modified source).
After a run no source file is missing from the destination, and re-running
over the produced destination copies zero files and skips every source
file — an interrupted run is resumed by copying only what is missing. -/
theorem C4_sync_additivity (src : List SFile) (dst : Option (List SFile)) :
    (∃ new, (sync_month_folder src dst).1 = dstFiles dst ++ new ∧
      ∀ f ∈ new, ∀ g ∈ dstFiles dst, f.rel ≠ g.rel) ∧
    (∀ f ∈ src, ∃ e ∈ (sync_month_folder src dst).1, e.rel = f.rel) ∧
    sync_month_folder src (some (sync_month_folder src dst).1) =
      ((sync_month_folder src dst).1, 0, src.length) := by
  have hpres : ∀ f ∈ src, ∃ e ∈ (sync_month_folder src dst).1, e.rel = f.rel := by
    cases dst with
    | none => exact fun f hf => ⟨f, hf, rfl⟩
    | some d =>
      obtain ⟨new, h1, h2, h3⟩ := syncFold_dst src d 0 0
      exact h3
  refine ⟨?_, hpres, ?_⟩
  · cases dst with
    | none =>
      exact ⟨src, rfl, fun f _ g hg => absurd hg (List.not_mem_nil g)⟩
    | some d =>
      obtain ⟨new, h1, h2, h3⟩ := syncFold_dst src d 0 0
      exact ⟨new, h1, fun f hf g hg => (h2 f hf).2 g hg⟩
  · show sync_month_folder src (some (sync_month_folder src dst).1) = _
    have := syncFold_all_present src (sync_month_folder src dst).1 0 0 hpres
    show syncFold src ((sync_month_folder src dst).1, 0, 0) = _
    rw [this]
    have : (0 : Nat) + src.length = src.length := by omega
    rw [this]

theorem C4_sync_additivity_witness :
    sync_month_folder [⟨["2025-03-14", "jpeg", "IMG_0001.JPG"], [7]⟩]
      (some ((sync_month_folder [⟨["2025-03-14", "jpeg", "IMG_0001.JPG"], [7]⟩]
        (some [⟨["2025-03-14", "jpeg", "IMG_0002.JPG"], [8]⟩])).1)) =
      (((sync_month_folder [⟨["2025-03-14", "jpeg", "IMG_0001.JPG"], [7]⟩]
        (some [⟨["2025-03-14", "jpeg", "IMG_0002.JPG"], [8]⟩])).1), 0, 1) :=
  (C4_sync_additivity [⟨["2025-03-14", "jpeg", "IMG_0001.JPG"], [7]⟩]
    (some [⟨["2025-03-14", "jpeg", "IMG_0002.JPG"], [8]⟩])).2.2

/-- Claim C1: the in-run duplicate invariant.  The `seen_hashes` index
never maps a hash to two first-seen paths — its keys are pairwise distinct
— and for every content hash, among the walked files that pass the skip
tests and share that hash, the first-visited one ends the run in its
computed target directory (which is never the quarantine folder) while
every later one ends the run under `root/_duplicates`: exactly one
canonical occupant per hash, all other members quarantined. -/
theorem C1_duplicate_invariant (L : List OFile) (h : List Nat) :
    (seenKeys (organize L).seen).Nodup ∧
    ∀ p0 rest, pairsWithHash L (organize L).placed h = p0 :: rest →
      p0.2.dir = targetDir p0.1 ∧ p0.2.dir ≠ duplicatesDir ∧
      ∀ q ∈ rest, q.2.dir = duplicatesDir := by
  obtain ⟨outs, hplaced, hrel⟩ := orgRun_spec L initState
  have houts : (organize L).placed = outs := by
    show (orgRun initState L).placed = outs
    rw [hplaced]
    rfl
  constructor
  · exact orgRun_seen_nodup L initState (by simp [initState, seenKeys])
  · intro p0 rest hp
    rw [houts] at hp
    have hstruct := (outcomes_hash_structure h hrel).2 (by simp [initState, seenKeys])
    obtain ⟨hcanon, hdup⟩ := hstruct p0 rest hp
    refine ⟨hcanon, ?_, hdup⟩
    intro hcon
    have h1 := underDuplicates_targetDir p0.1
    rw [← hcanon, hcon, underDuplicates_duplicatesDir] at h1
    exact Bool.noConfusion h1

theorem C1_duplicate_invariant_witness :
    (seenKeys (organize [exOrig, exCopy]).seen).Nodup ∧
    ∃ p0 rest, pairsWithHash [exOrig, exCopy] (organize [exOrig, exCopy]).placed [7] =
      p0 :: rest ∧ p0.2.dir = targetDir p0.1 ∧ ∀ q ∈ rest, q.2.dir = duplicatesDir := by
  have hthm := C1_duplicate_invariant [exOrig, exCopy] [7]
  have hpair : pairsWithHash [exOrig, exCopy] (organize [exOrig, exCopy]).placed [7] =
      (exOrig, exOrig) :: [(exCopy, reloc exCopy duplicatesDir "IMG_0001.JPG")] := by
    decide
  obtain ⟨hcanon, _, hdup⟩ := hthm.2 _ _ hpair
  exact ⟨hthm.1, _, _, hpair, hcanon, hdup⟩

/-- Claim C3: idempotence.  Running the organizer again over the snapshot
produced by a previous run — in any visitation order, with no new files —
performs zero moves (the move counter, which also counts the log lines,
stays 0) and leaves every file untouched: each file either fails a skip
test or already sits in its computed target directory, so the walk only
re-records hashes. -/
theorem C3_second_run_zero_moves (L M : List OFile)
    (hperm : M.Perm (organize L).placed) :
    (organize M).moves = 0 ∧ (organize M).placed = M := by
  obtain ⟨hplace, hpw⟩ := organize_output_organized L
  have hplaceM : ∀ g ∈ M, isSkipped g = true ∨ g.dir = targetDir g :=
    fun g hg => hplace g (hperm.mem_iff.mp hg)
  have hpwM : List.Pairwise (fun f g => isSkipped f = false → isSkipped g = false →
      file_hash f.content ≠ file_hash g.content) M :=
    (hperm.pairwise_iff (fun {a b} hab hb ha => (hab ha hb).symm)).mpr hpw
  have hrun := orgRun_no_moves M initState hplaceM
    (by intro f _ _ hc; simp [initState, seenKeys] at hc) hpwM
  constructor
  · exact hrun.2
  · have := hrun.1
    simpa [initState] using this

theorem C3_second_run_zero_moves_witness :
    (organize (organize [exCopy, exOrig]).placed).moves = 0 ∧
    (organize (organize [exCopy, exOrig]).placed).placed =
      (organize [exCopy, exOrig]).placed :=
  C3_second_run_zero_moves [exCopy, exOrig] (organize [exCopy, exOrig]).placed
    (List.Perm.refl _)

/-- Claim C6 is false as stated: duplicate-detection outcomes do depend on
the visitation order.  When the walk visits the byte-identical inbox copy
before the original that already sits at its canonical path, the ORIGINAL
is the file that lands in `root/_duplicates`, while the inbox copy takes
over the canonical directory under the disambiguated name
`IMG_0001_1.JPG` — the inbox copy does not land in quarantine and the
original is not left in place.  (The run appends one output per input in
visitation order, so output 0 is the inbox copy's record and output 1 the
original's.) -/
theorem C6_order_counterexample :
    (organize [exCopy, exOrig]).placed.map (fun g => (g.dir, g.name)) =
      [(["2025-03", "2025-03-14", "jpeg"], "IMG_0001_1.JPG"),
       ([DUPLICATES_DIR_NAME], "IMG_0001.JPG")] ∧
    ((organize [exCopy, exOrig]).placed.map OFile.dir)[0]? ≠ some duplicatesDir ∧
    ((organize [exCopy, exOrig]).placed.map OFile.dir)[1]? ≠
      some ["2025-03", "2025-03-14", "jpeg"] := by
  decide

/-- Claim C6 amended: what is order-independent is the outcome SET, per the
first-one-seen-in-this-run-wins rule — not the identity of the quarantined
file.  For any two byte-identical files that pass the skip tests, in
whichever order the walk visits them, the run ends with the first-visited
file at its computed target directory and the second-visited file in the
quarantine folder; the spec's inbox scenario (the copy quarantined, the
original left in place) holds exactly when the original is visited first. -/
theorem C6_amended_first_seen_wins (f g : OFile)
    (hf : isSkipped f = false) (hg : isSkipped g = false)
    (hc : f.content = g.content) :
    ∃ outF outG, (organize [f, g]).placed = [outF, outG] ∧
      outF.dir = targetDir f ∧ outG.dir = duplicatesDir ∧
      outF.content = f.content ∧ outG.content = g.content := by
  obtain ⟨outs, hplaced, hrel⟩ := orgRun_spec [f, g] initState
  have houts : (organize [f, g]).placed = outs := by
    show (orgRun initState [f, g]).placed = outs
    rw [hplaced]
    rfl
  cases hrel with
  | @cons _ _ outF _ outs2 ho1 hrel2 =>
    cases hrel2 with
    | @cons _ _ outG _ outs3 ho2 hrel3 =>
      cases hrel3 with
      | nil =>
        obtain ⟨hc1, hm1, hd1, hn1, hs1⟩ := ho1
        obtain ⟨hc2, hm2, hd2, hn2, hs2⟩ := ho2
        refine ⟨outF, outG, by rw [houts], ?_, ?_, hc1, hc2⟩
        · rw [hd1, finalDirSpec, if_neg (by simp [hf])]
          rw [if_neg (by simp [initState, seenKeys])]
        · rw [hd2, finalDirSpec, if_neg (by simp [hg])]
          have hmem : file_hash g.content ∈
              procHashes (seenKeys initState.seen) f := by
            have hpf : procHashes (seenKeys initState.seen) f =
                seenKeys initState.seen ++ [file_hash f.content] := by
              rw [procHashes, if_neg (by simp [hf]),
                if_neg (by simp [initState, seenKeys])]
            rw [hpf, ← hc]
            simp [initState, seenKeys]
          rw [if_pos hmem]

theorem C6_amended_first_seen_wins_witness :
    ∃ outF outG, (organize [exOrig, exCopy]).placed = [outF, outG] ∧
      outF.dir = targetDir exOrig ∧ outG.dir = duplicatesDir ∧
      outF.content = exOrig.content ∧ outG.content = exCopy.content :=
  C6_amended_first_seen_wins exOrig exCopy (by decide) (by decide) (by decide)

end AutoOrgMig
